import Mathlib

/-!
# Verification of the grid physics engine (`src/lib.rs`)

A shallow embedding of the simulation core in `src/lib.rs` (materials,
particles, world grid, rigid objects with fracture and fragmentation),
together with proofs settling the specification claims.

Embedding conventions:
* Rust `f32` values are modelled as exact rationals (`ℚ`).  All material
  constants of the source are exactly representable except `0.001` and the
  `0.6`-family, whose tiny binary rounding does not affect any comparison
  proved here; the literals of the source text are used.
* `pos as usize` (an `f32 → usize` cast in Rust) truncates toward zero and
  saturates at `0` for negative input; it is modelled by `ratToUsize`.
  `pos as i32` truncates toward zero (`ratToI32`); 32-bit overflow is not
  modelled (no claim involves coordinates near `2^31`).
* The world grid `Vec<Vec<(Option<ParticleRef>, f32, f32)>>` is always a
  rectangular `height × width` matrix in the source; it is modelled as a
  total function `ℕ → ℕ → Cell` (row index first, as in `grid[y][x]`).
  Writes (`self.grid[y][x].k = v`) panic in Rust when the index is out of
  range; a write is therefore modelled as returning `Option World`, with
  `none` for the panic.  Reads (`give_*_on_position`) are a caller contract
  ("out-of-range reads are a programming error" per the source design), and
  are modelled as total reads of the grid function; every theorem about
  them restricts to in-range coordinates.
-/

namespace Rusty

/-- Rust `f32 as usize`: truncation toward zero, saturating at `0` for
negative input. -/
def ratToUsize (q : ℚ) : ℕ := if q < 0 then 0 else (⌊q⌋).toNat

/-- Rust `f32 as i32`: truncation toward zero. -/
def ratToI32 (q : ℚ) : ℤ := if q < 0 then ⌈q⌉ else ⌊q⌋

/-- `enum ParticleRef` of the source: who occupies a grid cell. -/
inductive ParticleRef where
  | Free : ℕ → ParticleRef
  | InObject : ℕ → ℕ → ℕ → ParticleRef
  | Static : ParticleRef
deriving DecidableEq

/-- `enum MaterialTyp` of the source. -/
inductive MaterialTyp where
  | Sand | Stein | Metall | Luft | Wasser | Holz
deriving DecidableEq

/-- `MaterialTyp::binding_strength` of the source. -/
def MaterialTyp.binding_strength : MaterialTyp → ℚ
  | .Sand => 2
  | .Stein => 80
  | .Metall => 200
  | .Luft => 0
  | .Wasser => 0
  | .Holz => 40

/-- `MaterialTyp::density` of the source (mass per cell, cell volume 1).
Note the source comment for `Luft`: "Fast masselos, aber nicht 0". -/
def MaterialTyp.density : MaterialTyp → ℚ
  | .Sand => 3/2
  | .Stein => 5/2
  | .Metall => 8
  | .Luft => 1/1000
  | .Wasser => 1
  | .Holz => 3/5

/-- `MaterialTyp::is_solid` of the source. -/
def MaterialTyp.is_solid : MaterialTyp → Bool
  | .Sand => true
  | .Stein => true
  | .Metall => true
  | .Luft => false
  | .Wasser => false
  | .Holz => true

/-- `MaterialTyp::impact_dampening` of the source. -/
def MaterialTyp.impact_dampening : MaterialTyp → ℚ
  | .Sand => 3/10
  | .Stein => 1
  | .Metall => 9/10
  | .Luft => 0
  | .Wasser => 1/5
  | .Holz => 3/5

/-- `struct Particle` of the source (positions and velocities as pairs). -/
structure Particle where
  id : ℤ
  position : ℚ × ℚ
  velocity : ℚ × ℚ
  material : MaterialTyp
  particle_ref : ParticleRef

/-- `Particle::new`. -/
def Particle.new (id : ℤ) (position velocity : ℚ × ℚ) (material : MaterialTyp)
    (particle_ref : ParticleRef) : Particle :=
  ⟨id, position, velocity, material, particle_ref⟩

/-- `Particle::mass`: mass = density (cell volume 1). -/
def Particle.mass (p : Particle) : ℚ := p.material.density

/-- One world-grid cell: `(Option<ParticleRef>, f32, f32)` =
(occupant, mass, pressure). -/
abbrev Cell : Type := Option ParticleRef × ℚ × ℚ

/-- `struct World` of the source.  The rectangular `Vec<Vec<Cell>>` is
modelled as a total function; `grid y x` is `grid[y][x]`. -/
structure World where
  height : ℕ
  width : ℕ
  grid : ℕ → ℕ → Cell

/-- `World::new`: all cells `(None, 0.0, 0.0)`. -/
def World.new (h w : ℕ) : World := ⟨h, w, fun _ _ => (none, 0, 0)⟩

/-- `World::give_pressure_on_position` (in-range read, see module header). -/
def World.give_pressure_on_position (w : World) (x y : ℕ) : ℚ :=
  (w.grid y x).2.2

/-- `World::give_occupation_on_position` (in-range read, see module header). -/
def World.give_occupation_on_position (w : World) (x y : ℕ) : Option ParticleRef :=
  (w.grid y x).1

/-- The assignment `self.grid[y][x] = f(self.grid[y][x])` of the source's
mutators: the `Vec` indexing panics (modelled as `none`) unless
`y < height` and `x < width`; otherwise exactly that cell is rewritten. -/
def World.writeCell (w : World) (x y : ℕ) (f : Cell → Cell) : Option World :=
  if y < w.height ∧ x < w.width then
    some ⟨w.height, w.width, fun y' x' =>
      if y' = y ∧ x' = x then f (w.grid y x) else w.grid y' x'⟩
  else none

/-- `World::update_mass_on_position`: `grid[y][x].1 = mass` with
`x = pos[0] as usize`, `y = pos[1] as usize`.  No bounds check in the
source; the out-of-range panic is `none`. -/
def World.update_mass_on_position (w : World) (partl_koord : ℚ × ℚ) (mass : ℚ) :
    Option World :=
  w.writeCell (ratToUsize partl_koord.1) (ratToUsize partl_koord.2)
    (fun c => (c.1, mass, c.2.2))

/-- `World::update_occupation_on_position`: `grid[y][x].0 = Some(ref)`. -/
def World.update_occupation_on_position (w : World) (partl_koord : ℚ × ℚ)
    (particle_ref : ParticleRef) : Option World :=
  w.writeCell (ratToUsize partl_koord.1) (ratToUsize partl_koord.2)
    (fun c => (some particle_ref, c.2.1, c.2.2))

/-- `World::clear_occupation_on_position`: `grid[y][x].0 = None`. -/
def World.clear_occupation_on_position (w : World) (partl_koord : ℚ × ℚ) :
    Option World :=
  w.writeCell (ratToUsize partl_koord.1) (ratToUsize partl_koord.2)
    (fun c => (none, c.2.1, c.2.2))

/-- `World::clear_mass_on_position`: `grid[y][x].1 = 0.0`. -/
def World.clear_mass_on_position (w : World) (partl_koord : ℚ × ℚ) :
    Option World :=
  w.writeCell (ratToUsize partl_koord.1) (ratToUsize partl_koord.2)
    (fun c => (c.1, 0, c.2.2))

/-- The running sum of the column scan of `calc_pressure_on_all_position`:
the source iterates `i` from `height-1` down to `y`, accumulating
`grid[i][j].1`; the value written at row `y` is the sum of the masses of
rows `y, y+1, …` for `fuel` rows.  `sumMassFrom m fuel y =
m y + m (y+1) + ⋯ + m (y+fuel-1)`. -/
def sumMassFrom (m : ℕ → ℚ) : ℕ → ℕ → ℚ
  | 0, _ => 0
  | fuel + 1, y => m y + sumMassFrom m fuel (y + 1)

/-- `World::calc_pressure_on_all_position`: for every column `j` and every
row `i` (scanned from the top down), the pressure field is set to the
accumulated mass of rows `i..height-1`; occupants and masses are not
touched, nor are cells outside the `height × width` rectangle. -/
def World.calc_pressure_on_all_position (w : World) : World :=
  ⟨w.height, w.width, fun y x =>
    if y < w.height ∧ x < w.width then
      ((w.grid y x).1, (w.grid y x).2.1,
        sumMassFrom (fun i => (w.grid i x).2.1) (w.height - y) y)
    else w.grid y x⟩

/-- `Particle::fall_down`.  `x`/`y` are the `as i32` truncations of the
position.  Straight down is tried first, then down-left, then down-right;
the source consults the material nowhere.  Rust reads
`give_occupation_on_position(u as usize, v as usize)` with `u v : i32`;
for the in-range coordinates all theorems use, `Int.toNat` is that cast. -/
def Particle.fall_down (p : Particle) (w : World) : Option (Particle × World) :=
  let x : ℤ := ratToI32 p.position.1
  let y : ℤ := ratToI32 p.position.2
  if y ≤ 0 then some (p, w)
  else if w.give_occupation_on_position x.toNat (y - 1).toNat = none then do
    let w1 ← w.clear_occupation_on_position p.position
    let w2 ← w1.clear_mass_on_position p.position
    let p1 : Particle := { p with position := (p.position.1, p.position.2 - 1) }
    let w3 ← w2.update_occupation_on_position p1.position p1.particle_ref
    let w4 ← w3.update_mass_on_position p1.position p1.mass
    some (p1, w4)
  else if 0 < x ∧ w.give_occupation_on_position (x - 1).toNat (y - 1).toNat = none then do
    let w1 ← w.clear_occupation_on_position p.position
    let w2 ← w1.clear_mass_on_position p.position
    let p1 : Particle := { p with position := (p.position.1 - 1, p.position.2 - 1) }
    let w3 ← w2.update_occupation_on_position p1.position p1.particle_ref
    let w4 ← w3.update_mass_on_position p1.position p1.mass
    some (p1, w4)
  else if x < (w.width : ℤ) - 1 ∧
      w.give_occupation_on_position (x + 1).toNat (y - 1).toNat = none then do
    let w1 ← w.clear_occupation_on_position p.position
    let w2 ← w1.clear_mass_on_position p.position
    let p1 : Particle := { p with position := (p.position.1 + 1, p.position.2 - 1) }
    let w3 ← w2.update_occupation_on_position p1.position p1.particle_ref
    let w4 ← w3.update_mass_on_position p1.position p1.mass
    some (p1, w4)
  else some (p, w)

/-- A bond between two object-grid cells, `((i1,j1),(i2,j2))`. -/
abbrev Bond : Type := (ℕ × ℕ) × (ℕ × ℕ)

/-- `struct Object` of the source.  As with `World`, the rectangular
`object_grid : Vec<Vec<(Particle, f32, f32)>>` (always `object_h × object_w`
by construction) is modelled as a total function, row index first. -/
structure Object where
  object_id : ℤ
  is_destroyed : Bool
  position : ℚ × ℚ
  velocity : ℚ × ℚ
  total_object_mass : ℚ
  object_h : ℕ
  object_w : ℕ
  object_grid : ℕ → ℕ → Particle × ℚ × ℚ

/-- Material of the particle at object-grid cell `(i, j)`
(`self.object_grid[i][j].0.material`). -/
def Object.matAt (o : Object) (i j : ℕ) : MaterialTyp :=
  (o.object_grid i j).1.material

/-- `Object::new`: a uniform `h × w` block of one material anchored at
`position`; total mass `(h*w) as f32 * density`. -/
def Object.new (id : ℤ) (object_idx : ℕ) (position velocity : ℚ × ℚ)
    (material : MaterialTyp) (h w : ℕ) : Object :=
  ⟨id, false, position, velocity, ((h * w : ℕ) : ℚ) * material.density, h, w,
    fun i j =>
      (Particle.new (id * 100 + ((i * w + j : ℕ) : ℤ))
        (position.1 + (j : ℚ), position.2 + (i : ℚ)) (0, 0) material
        (ParticleRef.InObject object_idx i j), 0, 0)⟩

/-- The material pattern of `Object::new_quadrant` (4×4, two-by-two
quadrants Holz / Metall / Stein / Holz). -/
def quadrantMaterial (i j : ℕ) : MaterialTyp :=
  if i < 2 ∧ j < 2 then .Holz
  else if i < 2 ∧ 2 ≤ j then .Metall
  else if 2 ≤ i ∧ j < 2 then .Stein
  else .Holz

/-- `Object::new_quadrant`: the fixed 4×4 four-material test pattern; its
total mass accumulates every cell's density (the loop's `total_mass`). -/
def Object.new_quadrant (id : ℤ) (object_idx : ℕ) (position velocity : ℚ × ℚ) :
    Object :=
  ⟨id, false, position, velocity,
    ∑ i ∈ Finset.range 4, ∑ j ∈ Finset.range 4, (quadrantMaterial i j).density,
    4, 4, fun i j =>
      (Particle.new (id * 100 + ((i * 4 + j : ℕ) : ℤ))
        (position.1 + (j : ℚ), position.2 + (i : ℚ)) (0, 0) (quadrantMaterial i j)
        (ParticleRef.InObject object_idx i j), 0, 0)⟩

/-- The material lookup of `Object::new_from_fragment`: the first entry of
`fragment_data` whose coordinates truncate to `(wx, wy)`, else `Luft`
("Loch → Luft als Platzhalter"). -/
def fragMaterialAt (fragment_data : List ((ℚ × ℚ) × MaterialTyp)) (wx wy : ℕ) :
    MaterialTyp :=
  match fragment_data.find? (fun pr =>
      ratToUsize pr.1.1 == wx && ratToUsize pr.1.2 == wy) with
  | some pr => pr.2
  | none => MaterialTyp.Luft

/-- `Object::new_from_fragment`: tight bounding box of the truncated input
positions, anchored at the minima; holes become `Luft`; total mass
accumulates the density of every non-`Luft` cell.  The source's
`.min().unwrap()` / `.max().unwrap()` panic on an empty list, modelled as
`none`. -/
def Object.new_from_fragment (id : ℤ) (object_idx : ℕ)
    (fragment_data : List ((ℚ × ℚ) × MaterialTyp)) (velocity : ℚ × ℚ) :
    Option Object := do
  let min_x ← (fragment_data.map (fun pr => ratToUsize pr.1.1)).min?
  let max_x ← (fragment_data.map (fun pr => ratToUsize pr.1.1)).max?
  let min_y ← (fragment_data.map (fun pr => ratToUsize pr.1.2)).min?
  let max_y ← (fragment_data.map (fun pr => ratToUsize pr.1.2)).max?
  let w := max_x - min_x + 1
  let h := max_y - min_y + 1
  some ⟨id, false, ((min_x : ℚ), (min_y : ℚ)), velocity,
    ∑ i ∈ Finset.range h, ∑ j ∈ Finset.range w,
      (if fragMaterialAt fragment_data (min_x + j) (min_y + i) ≠ MaterialTyp.Luft
       then (fragMaterialAt fragment_data (min_x + j) (min_y + i)).density
       else 0),
    h, w, fun i j =>
      (Particle.new (id * 100 + ((i * w + j : ℕ) : ℤ))
        (((min_x + j : ℕ) : ℚ), ((min_y + i : ℕ) : ℚ)) velocity
        (fragMaterialAt fragment_data (min_x + j) (min_y + i))
        (ParticleRef.InObject object_idx i j), 0, 0)⟩

/-- `Object::calc_impact_force`: total mass × |velocity before impact|. -/
def Object.calc_impact_force (o : Object) (velocity_before_impact : ℚ) : ℚ :=
  o.total_object_mass * |velocity_before_impact|

/-- `Object::calc_bond_strength`: full strength for identical materials,
`0.5 × min` for a material transition. -/
def Object.calc_bond_strength (mat_a mat_b : MaterialTyp) : ℚ :=
  if mat_a = mat_b then mat_a.binding_strength
  else min mat_a.binding_strength mat_b.binding_strength * (1 / 2)

/-- `Object::check_fracture`.  Faithful to the source, including the
`continue` in the right-neighbor branch: when the right neighbor exists
and is `Luft`, the source's `continue` skips the remainder of the loop
body, i.e. the up-neighbor check of the same cell is not performed. -/
def Object.check_fracture (o : Object) (impact_force dampening_factor : ℚ) :
    List Bond :=
  let base_force := impact_force * dampening_factor
  (List.range o.object_h).flatMap (fun i =>
    (List.range o.object_w).flatMap (fun j =>
      if o.matAt i j = MaterialTyp.Luft then []
      else
        let force_at_row := base_force * (1 / ((i : ℚ) + 1))
        let upList : List Bond :=
          if i + 1 < o.object_h ∧ o.matAt (i + 1) j ≠ MaterialTyp.Luft ∧
              force_at_row > Object.calc_bond_strength (o.matAt i j) (o.matAt (i + 1) j)
          then [((i, j), (i + 1, j))] else []
        if o.object_w ≤ j + 1 then upList
        else if o.matAt i (j + 1) = MaterialTyp.Luft then []
        else
          (if force_at_row > Object.calc_bond_strength (o.matAt i j) (o.matAt i (j + 1))
           then [((i, j), (i, j + 1))] else []) ++ upList))

/-- `Object::calc_pressure_per_column`: per column `j`, the summed positive
world masses strictly above the object's top row at that column; `0` when
the probed top cell lies outside the world (the `continue`). -/
def Object.calc_pressure_per_column (o : Object) (w : World) : List ℚ :=
  (List.range o.object_w).map (fun j =>
    let world_x := ratToUsize o.position.1 + j
    let world_y := ratToUsize o.position.2 + (o.object_h - 1)
    if w.width ≤ world_x ∨ w.height ≤ world_y then 0
    else ∑ y ∈ Finset.Ico (world_y + 1) w.height,
      (if 0 < (w.grid y world_x).2.1 then (w.grid y world_x).2.1 else 0))

/-- The inner row scan of `Object::check_pressure_fracture` for column `j`:
rows are visited top-to-bottom (the list argument is
`(List.range object_h).reverse`), `Luft` rows are skipped, the vertical
bond below and the horizontal bond to the right are tested against the
accumulated pressure, and then the cell's own mass joins the accumulator. -/
def pressureColumnGo (o : Object) (j : ℕ) : ℚ → List ℕ → List Bond
  | _, [] => []
  | acc, i :: rest =>
    if o.matAt i j = MaterialTyp.Luft then pressureColumnGo o j acc rest
    else
      (if 0 < i ∧ o.matAt (i - 1) j ≠ MaterialTyp.Luft ∧
          acc > Object.calc_bond_strength (o.matAt i j) (o.matAt (i - 1) j)
       then [((i - 1, j), (i, j))] else []) ++
      (if j + 1 < o.object_w ∧ o.matAt i (j + 1) ≠ MaterialTyp.Luft ∧
          acc > Object.calc_bond_strength (o.matAt i j) (o.matAt i (j + 1))
       then [((i, j), (i, j + 1))] else []) ++
      pressureColumnGo o j (acc + (o.object_grid i j).1.mass) rest

/-- `Object::check_pressure_fracture`: per column, the top-to-bottom scan
seeded with that column's external pressure. -/
def Object.check_pressure_fracture (o : Object) (w : World) : List Bond :=
  let ext := o.calc_pressure_per_column w
  (List.range o.object_w).flatMap (fun j =>
    pressureColumnGo o j (ext.getD j 0) (List.range o.object_h).reverse)

/-- `to_index` of `Object::find_fragments`: `(i, j) ↦ i * object_w + j`. -/
def Object.to_index (o : Object) (c : ℕ × ℕ) : ℕ := c.1 * o.object_w + c.2

/-- Read `parent[x]` of the parent array of `Object::find_fragments`.
Every access of the source is in range (`x < parent.len()`); the
out-of-range default `x` is chosen so that indices beyond the array are
their own roots, which keeps the forest invariant uniform. -/
def pget (p : List ℕ) (x : ℕ) : ℕ := p.getD x x

/-- The `find` of `Object::find_fragments`: iterative root search with
path halving (`parent[x] = parent[parent[x]]; x = parent[x]`).  The Rust
`while` loop terminates because the parent forest is acyclic; the fuel
argument (always instantiated with the cell count, an upper bound for
every chain length in an acyclic forest over `0..total`) makes the
recursion structural.  `ufFind_spec` below proves that under the forest
invariant the fuelled loop reaches the root exactly as the `while` does. -/
def ufFind : ℕ → List ℕ → ℕ → List ℕ × ℕ
  | 0, p, x => (p, x)
  | fuel + 1, p, x =>
    if pget p x = x then (p, x)
    else ufFind fuel (p.set x (pget p (pget p x))) (pget p (pget p x))

/-- The `union` of `Object::find_fragments`: find both roots (with the
compressed parent array threaded through) and graft `root_a` onto
`root_b` when they differ. -/
def ufUnion (fuel : ℕ) (p : List ℕ) (a b : ℕ) : List ℕ :=
  let fa := ufFind fuel p a
  let fb := ufFind fuel fa.1 b
  if fa.2 ≠ fb.2 then fb.1.set fa.2 fb.2 else fb.1

/-- The `all_bonds` collection of `Object::find_fragments`: right and up
neighbor pairs between non-`Luft` cells, in row-major visit order. -/
def Object.all_bonds (o : Object) : List Bond :=
  (List.range o.object_h).flatMap (fun i =>
    (List.range o.object_w).flatMap (fun j =>
      if o.matAt i j = MaterialTyp.Luft then []
      else
        (if j + 1 < o.object_w ∧ o.matAt i (j + 1) ≠ MaterialTyp.Luft
         then [((i, j), (i, j + 1))] else []) ++
        (if i + 1 < o.object_h ∧ o.matAt (i + 1) j ≠ MaterialTyp.Luft
         then [((i, j), (i + 1, j))] else [])))

/-- The union phase of `Object::find_fragments`: starting from the identity
parent array `(0..total).collect()`, union the endpoints of every bond not
contained in `broken_bonds`. -/
def Object.fracture_parent (o : Object) (broken : List Bond) : List ℕ :=
  o.all_bonds.foldl (fun p bond =>
    if broken.contains bond then p
    else ufUnion (o.object_h * o.object_w) p (o.to_index bond.1) (o.to_index bond.2))
    (List.range (o.object_h * o.object_w))

/-- The row-major list of non-`Luft` cells, as visited by the collection
loop of `Object::find_fragments`. -/
def Object.cellList (o : Object) : List (ℕ × ℕ) :=
  (List.range o.object_h).flatMap (fun i =>
    (List.range o.object_w).filterMap (fun j =>
      if o.matAt i j = MaterialTyp.Luft then none else some (i, j)))

/-- `fragments_map.entry(root).or_insert_with(Vec::new).push((i, j))`:
append `c` to the group keyed `r`, creating the group at the end if the
key is new (a `HashMap` modelled as an association list in key-creation
order; the claims are insensitive to the order `into_values` yields). -/
def insertGroup : List (ℕ × List (ℕ × ℕ)) → ℕ → ℕ × ℕ → List (ℕ × List (ℕ × ℕ))
  | [], r, c => [(r, [c])]
  | (k, l) :: rest, r, c =>
    if k = r then (k, l ++ [c]) :: rest else (k, l) :: insertGroup rest r c

/-- `Object::find_fragments`: union phase, then the collection loop, which
threads the (path-compressed) parent map while grouping every non-`Luft`
cell under its root; finally the groups' cell lists. -/
def Object.find_fragments (o : Object) (broken : List Bond) :
    List (List (ℕ × ℕ)) :=
  (o.cellList.foldl (fun st c =>
      let fr := ufFind (o.object_h * o.object_w) st.1 (o.to_index c)
      (fr.1, insertGroup st.2 fr.2 c))
    (o.fracture_parent broken, ([] : List (ℕ × List (ℕ × ℕ))))).2.map Prod.snd

/-- `Object::extract_fragment_data`: world position and material of every
listed cell. -/
def Object.extract_fragment_data (o : Object) (fragment : List (ℕ × ℕ)) :
    List ((ℚ × ℚ) × MaterialTyp) :=
  fragment.map (fun c =>
    ((o.object_grid c.1 c.2).1.position, (o.object_grid c.1 c.2).1.material))

/-- `Object::clear_from_world`: for every grid cell (`Luft` included — the
source has no material filter here, unlike `update_object_position`),
clear occupancy then mass at the particle's stored position. -/
def Object.clear_from_world (o : Object) (w : World) : Option World :=
  ((List.range o.object_h).flatMap (fun i =>
      (List.range o.object_w).map (fun j => (i, j)))).foldlM
    (fun wacc c => do
      let w1 ← wacc.clear_occupation_on_position (o.object_grid c.1 c.2).1.position
      w1.clear_mass_on_position (o.object_grid c.1 c.2).1.position)
    w

/-! ## Specification-side definitions

The following definitions are not translations of source functions; they
express the claims' vocabulary (forest invariants for the union-find,
graph connectivity, aggregate masses) so that theorems can be stated. -/

/-- `r` is a root of the parent map `f` (its own parent). -/
def isUFRoot (f : ℕ → ℕ) (r : ℕ) : Prop := f r = r

/-- Following parent links from `x` eventually reaches the root `r`. -/
def Reaches (f : ℕ → ℕ) (x r : ℕ) : Prop := isUFRoot f r ∧ ∃ k, f^[k] x = r

/-- The union-find forest invariant for a parent array over `0..n`:
correct length, parents of in-range nodes in range, and every node's
parent chain reaches a root (acyclicity). -/
def UFWF (n : ℕ) (p : List ℕ) : Prop :=
  p.length = n ∧ (∀ x, x < n → pget p x < n) ∧ ∀ x, ∃ r, Reaches (pget p) x r

/-- Two nodes lie in the same union-find class: a common reachable root. -/
def rootEq (f : ℕ → ℕ) (x y : ℕ) : Prop :=
  ∃ r, Reaches f x r ∧ Reaches f y r

/-- The root that `Object::find_fragments` computes for a cell after the
union phase. -/
def Object.rootFn (o : Object) (broken : List Bond) (c : ℕ × ℕ) : ℕ :=
  (ufFind (o.object_h * o.object_w) (o.fracture_parent broken) (o.to_index c)).2

/-- The bonds that survive: `all_bonds` minus the listed broken bonds. -/
def Object.keptBonds (o : Object) (broken : List Bond) : List Bond :=
  o.all_bonds.filter (fun b => !(broken.contains b))

/-- The kept-bond relation transported to union-find indices. -/
def Object.keptIdxRel (o : Object) (broken : List Bond) (m1 m2 : ℕ) : Prop :=
  ∃ b ∈ o.keptBonds broken, m1 = o.to_index b.1 ∧ m2 = o.to_index b.2

/-- Inverse of `to_index` on in-range cells. -/
def Object.fromIndex (o : Object) (m : ℕ) : ℕ × ℕ :=
  (m / o.object_w, m % o.object_w)

/-- The claim's edge set: `d` is the right or the up neighbor of `c`, both
cells are in range and non-air, and the (oriented) pair is not among the
listed broken bonds. -/
def Object.bondAdj (o : Object) (broken : List Bond) (c d : ℕ × ℕ) : Prop :=
  c.1 < o.object_h ∧ c.2 < o.object_w ∧ d.1 < o.object_h ∧ d.2 < o.object_w ∧
  o.matAt c.1 c.2 ≠ MaterialTyp.Luft ∧ o.matAt d.1 d.2 ≠ MaterialTyp.Luft ∧
  (d = (c.1, c.2 + 1) ∨ d = (c.1 + 1, c.2)) ∧ (c, d) ∉ broken

/-- Connectivity by unbroken bonds: the reflexive–transitive closure of
the symmetrised claim edge set. -/
def Object.connectedCells (o : Object) (broken : List Bond) (c d : ℕ × ℕ) : Prop :=
  Relation.ReflTransGen
    (fun a b => o.bondAdj broken a b ∨ o.bondAdj broken b a) c d

/-- The kept-bond relation on cells (oriented: `c` bonded to its right or
up neighbor `d`). -/
def Object.keptCellRel (o : Object) (broken : List Bond) (c d : ℕ × ℕ) : Prop :=
  ∃ b ∈ o.keptBonds broken, c = b.1 ∧ d = b.2

/-- Total mass of the non-air cells of the object grid. -/
def Object.nonAirMass (o : Object) : ℚ :=
  ∑ i ∈ Finset.range o.object_h, ∑ j ∈ Finset.range o.object_w,
    (if o.matAt i j ≠ MaterialTyp.Luft then (o.matAt i j).density else 0)

/-- The summed mass of all fragments, each fragment's cells read off via
`extract_fragment_data` (an entry's mass is its material's density). -/
def Object.fragmentsMass (o : Object) (broken : List Bond) : ℚ :=
  ((o.find_fragments broken).map (fun F =>
    ((o.extract_fragment_data F).map (fun pr => pr.2.density)).sum)).sum

/-- Pure grouping fold (the collection loop of `find_fragments` with the
union-find state abstracted away): group list `L` by `key` in key-creation
order. -/
def groupFold (key : ℕ × ℕ → ℕ) (L : List (ℕ × ℕ)) : List (ℕ × List (ℕ × ℕ)) :=
  L.foldl (fun g c => insertGroup g (key c) c) []

/-- The self-weight of an object column above row `i`: summed densities of
the non-air cells of column `j` in rows `i+1 .. object_h - 1`. -/
def Object.weightAbove (o : Object) (i j : ℕ) : ℚ :=
  ∑ i' ∈ Finset.Ico (i + 1) o.object_h,
    (if o.matAt i' j ≠ MaterialTyp.Luft then (o.matAt i' j).density else 0)

/-- What a single unchecked grid-store does: for out-of-range truncated
coordinates it fails (the `Vec` index panic, `none`), and for in-range
coordinates it succeeds with exactly the addressed cell rewritten by `f`
and every other cell, both dimensions, and everything else unchanged. -/
def mutatorSpec (w : World) (x y : ℕ) (f : Cell → Cell) (res : Option World) : Prop :=
  (¬(x < w.width ∧ y < w.height) → res = none) ∧
  ((x < w.width ∧ y < w.height) →
    res = some ⟨w.height, w.width, fun y' x' =>
      if y' = y ∧ x' = x then f (w.grid y x) else w.grid y' x'⟩)

/-- The world `Object::clear_from_world` produces: every cell addressed by
the truncated stored position of ANY object-grid particle (air included)
has occupancy `None` and mass `0` (pressure untouched); all other cells
are unchanged. -/
def Object.clearedWorld (o : Object) (w : World) : World :=
  ⟨w.height, w.width, fun y x =>
    if ∃ i < o.object_h, ∃ j < o.object_w,
        ratToUsize (o.object_grid i j).1.position.1 = x ∧
        ratToUsize (o.object_grid i j).1.position.2 = y
    then (none, 0, (w.grid y x).2.2)
    else w.grid y x⟩

/-- Concrete fragment input used to exercise `check_fracture` on a grid
with an air hole: world cells `(0,0)`, `(0,1)`, `(1,1)` of Stein.  The
resulting 2×2 object has grid row 0 = `[Stein, Luft]`, row 1 =
`[Stein, Stein]`. -/
def fragListC5 : List ((ℚ × ℚ) × MaterialTyp) :=
  [((0, 0), .Stein), ((0, 1), .Stein), ((1, 1), .Stein)]

/-- The object `new_from_fragment` builds from `fragListC5`. -/
def objC5 : Object :=
  (Object.new_from_fragment 1 0 fragListC5 (0, 0)).getD
    (Object.new 0 0 (0, 0) (0, 0) .Luft 0 0)

/-- Concrete fragment input with a hole at world cell `(1, 0)`: the 2×2
bounding box of Stein cells `(0,0)` and `(1,1)` has two `Luft` holes. -/
def fragListC9 : List ((ℚ × ℚ) × MaterialTyp) :=
  [((0, 0), .Stein), ((1, 1), .Stein)]

/-- The object `new_from_fragment` builds from `fragListC9`. -/
def objC9 : Object :=
  (Object.new_from_fragment 1 0 fragListC9 (0, 0)).getD
    (Object.new 0 0 (0, 0) (0, 0) .Luft 0 0)

/-- Concrete test world: a 3×3 grid with one static occupant of mass 1000
at `(x, y) = (1, 0)` and nothing else. -/
def blockWorld : World :=
  ⟨3, 3, fun y x =>
    if y = 0 ∧ x = 1 then (some ParticleRef.Static, 1000, 0) else (none, 0, 0)⟩

/-- Concrete 1×2 `Stein` object used to instantiate the mass-conservation
theorem on a closed input. -/
def objC6 : Object := Object.new 7 0 (0, 0) (0, 0) MaterialTyp.Stein 1 2

/-- Concrete fragment input with two entries at the same world position
`(0, 0)` and different materials. -/
def fragListC8 : List ((ℚ × ℚ) × MaterialTyp) :=
  [((0, 0), MaterialTyp.Stein), ((0, 0), MaterialTyp.Sand)]

/-- The object `Object::new_from_fragment` builds from `fragListC8`. -/
def objC8 : Object :=
  (Object.new_from_fragment 3 0 fragListC8 (0, 0)).getD
    (Object.new 0 0 (0, 0) (0, 0) .Luft 0 0)

/-! ## General lemmas -/

theorem sumMassFrom_eq (m : ℕ → ℚ) :
    ∀ fuel y, sumMassFrom m fuel y = ∑ i ∈ Finset.Ico y (y + fuel), m i := by
  intro fuel
  induction fuel with
  | zero => intro y; simp [sumMassFrom]
  | succ n ih =>
    intro y
    rw [sumMassFrom, ih (y + 1)]
    rw [Finset.sum_eq_sum_Ico_succ_bot (by omega : y < y + (n + 1)) m]
    have h1 : y + 1 + n = y + (n + 1) := by omega
    rw [h1]

theorem writeCell_spec (w : World) (x y : ℕ) (f : Cell → Cell) :
    mutatorSpec w x y f (w.writeCell x y f) := by
  constructor
  · intro h
    unfold World.writeCell
    rw [if_neg (by tauto)]
  · intro h
    unfold World.writeCell
    rw [if_pos ⟨h.2, h.1⟩]

/-! ## Claim C10 -/

/-- C10 as stated is false: the source gives `Luft` the density `0.001`
("Fast masselos, aber nicht 0"), not `0`. -/
theorem C10_counterexample : ¬ MaterialTyp.Luft.density = 0 := by
  norm_num [MaterialTyp.density]

/-- C10 (amended): the `Air` material has density exactly `0.001` —
positive, deliberately not `0` — and binding strength exactly `0`, so an
air cell forms no bond. -/
theorem C10_air_constants :
    MaterialTyp.Luft.density = 1 / 1000 ∧ MaterialTyp.Luft.binding_strength = 0 :=
  ⟨rfl, rfl⟩

/-! ## Claim C2 -/

/-- C2 as stated is false: the mutators perform no bounds check, so an
out-of-range write is not silently ignored but fails (a `Vec` index
panic, `none` in the embedding). -/
theorem C2_counterexample :
    (World.new 2 2).update_mass_on_position (5, 0) 3 = none := by
  have h5 : ratToUsize (5 : ℚ) = 5 := by decide
  have h0 : ratToUsize (0 : ℚ) = 0 := by decide
  simp [World.update_mass_on_position, World.writeCell, World.new, h5, h0]

/-- C2 (amended): every World mutator (`setMass`, `clearMass`,
`setOccupant`, `clearOccupant`) is an unchecked store `grid[y][x] = f(…)`
with `x`/`y` the `as usize` truncations of the coordinates (negative
coordinates saturate to `0`): when the truncated coordinates lie outside
`[0,width) × [0,height)` the write is NOT silently ignored — it fails (the
`Vec` index panic, `none` here) — and when they lie inside, it succeeds and
the result is the same world with exactly the addressed cell rewritten
(occupant-set/clear, mass-set/clear respectively) and every other cell,
and both dimensions, unchanged. -/
theorem C2_mutators_unchecked (w : World) (pos : ℚ × ℚ) (m : ℚ) (r : ParticleRef) :
    mutatorSpec w (ratToUsize pos.1) (ratToUsize pos.2)
      (fun c => (c.1, m, c.2.2)) (w.update_mass_on_position pos m) ∧
    mutatorSpec w (ratToUsize pos.1) (ratToUsize pos.2)
      (fun c => (c.1, 0, c.2.2)) (w.clear_mass_on_position pos) ∧
    mutatorSpec w (ratToUsize pos.1) (ratToUsize pos.2)
      (fun c => (some r, c.2.1, c.2.2)) (w.update_occupation_on_position pos r) ∧
    mutatorSpec w (ratToUsize pos.1) (ratToUsize pos.2)
      (fun c => (none, c.2.1, c.2.2)) (w.clear_occupation_on_position pos) :=
  ⟨writeCell_spec w _ _ _, writeCell_spec w _ _ _, writeCell_spec w _ _ _,
    writeCell_spec w _ _ _⟩

/-- Witness for `C2_mutators_unchecked` at concrete inputs: an
out-of-range `setOccupant` fails, and an in-range `setMass` succeeds. -/
theorem C2_witness :
    (World.new 2 2).update_occupation_on_position (7, 0) ParticleRef.Static = none ∧
    ((World.new 2 2).update_mass_on_position (0, 0) 3).isSome = true := by
  constructor
  · apply (C2_mutators_unchecked (World.new 2 2) (7, 0) 0 ParticleRef.Static).2.2.1.1
    norm_num [ratToUsize, World.new]
  · rw [(C2_mutators_unchecked (World.new 2 2) (0, 0) 3 ParticleRef.Static).1.2
      (by norm_num [ratToUsize, World.new])]
    rfl

/-! ## Claim C3 -/

/-- C3: after `recomputePressure`, the pressure stored at in-range cell
`(x, y)` is the sum of the masses of column `x` at rows `y .. height-1`;
consequently, with non-negative masses, pressure within a column is
non-decreasing from the top row down. -/
theorem C3_pressure_prefix_sum (w : World) (x y : ℕ)
    (hx : x < w.width) (hy : y < w.height) :
    w.calc_pressure_on_all_position.give_pressure_on_position x y
      = ∑ i ∈ Finset.Ico y w.height, (w.grid i x).2.1 ∧
    ((∀ y' x', 0 ≤ (w.grid y' x').2.1) → ∀ y2, y ≤ y2 → y2 < w.height →
      w.calc_pressure_on_all_position.give_pressure_on_position x y2
        ≤ w.calc_pressure_on_all_position.give_pressure_on_position x y) := by
  have key : ∀ y0, y0 < w.height →
      w.calc_pressure_on_all_position.give_pressure_on_position x y0
        = ∑ i ∈ Finset.Ico y0 w.height, (w.grid i x).2.1 := by
    intro y0 hy0
    simp only [World.give_pressure_on_position, World.calc_pressure_on_all_position,
      if_pos (And.intro hy0 hx)]
    rw [sumMassFrom_eq, Nat.add_sub_cancel' hy0.le]
  refine ⟨key y hy, ?_⟩
  intro hmass y2 hle hy2
  rw [key y hy, key y2 hy2]
  apply Finset.sum_le_sum_of_subset_of_nonneg
  · apply Finset.Ico_subset_Ico hle le_rfl
  · intro i _ _
    exact hmass i x

/-- Witness for `C3_pressure_prefix_sum` at a concrete input. -/
theorem C3_witness :
    (0 : ℕ) < blockWorld.width ∧ (0 : ℕ) < blockWorld.height ∧
    blockWorld.calc_pressure_on_all_position.give_pressure_on_position 1 0
      = ∑ i ∈ Finset.Ico 0 blockWorld.height, (blockWorld.grid i 1).2.1 := by
  refine ⟨by norm_num [blockWorld], by norm_num [blockWorld], ?_⟩
  exact (C3_pressure_prefix_sum blockWorld 1 0 (by norm_num [blockWorld])
    (by norm_num [blockWorld])).1

/-! ## Claims C5 and C4 -/

theorem flatMap_nil_of {α β : Type} (l : List α) (f : α → List β)
    (h : ∀ a ∈ l, f a = []) : l.flatMap f = [] := by
  induction l with
  | nil => rfl
  | cons x xs ih =>
    rw [List.flatMap_cons, h x (by simp), List.nil_append]
    exact ih (fun a ha => h a (by simp [ha]))

theorem getD_zero_of_all (l : List ℚ) (h : ∀ q ∈ l, q = 0) :
    ∀ j, l.getD j 0 = 0 := by
  induction l with
  | nil => intro j; rfl
  | cons x xs ih =>
    intro j
    cases j with
    | zero => exact h x (by simp)
    | succ n => exact ih (fun q hq => h q (by simp [hq])) n

theorem binding_strength_nonneg (m : MaterialTyp) : 0 ≤ m.binding_strength := by
  cases m <;> norm_num [MaterialTyp.binding_strength]

theorem calc_bond_strength_nonneg (a b : MaterialTyp) :
    0 ≤ Object.calc_bond_strength a b := by
  unfold Object.calc_bond_strength
  split
  · exact binding_strength_nonneg a
  · have := binding_strength_nonneg a
    have := binding_strength_nonneg b
    have hmin : 0 ≤ min a.binding_strength b.binding_strength := le_min ‹_› ‹_›
    positivity

theorem matAt_new (id : ℤ) (idx : ℕ) (pos vel : ℚ × ℚ) (mat : MaterialTyp)
    (h w i j : ℕ) : (Object.new id idx pos vel mat h w).matAt i j = mat := rfl

theorem mass_new (id : ℤ) (idx : ℕ) (pos vel : ℚ × ℚ) (mat : MaterialTyp)
    (h w i j : ℕ) :
    ((Object.new id idx pos vel mat h w).object_grid i j).1.mass = mat.density := rfl

theorem objH_new (id : ℤ) (idx : ℕ) (pos vel : ℚ × ℚ) (mat : MaterialTyp)
    (h w : ℕ) : (Object.new id idx pos vel mat h w).object_h = h := rfl

theorem objW_new (id : ℤ) (idx : ℕ) (pos vel : ℚ × ℚ) (mat : MaterialTyp)
    (h w : ℕ) : (Object.new id idx pos vel mat h w).object_w = w := rfl

theorem objC5_dims_mats :
    objC5.object_h = 2 ∧ objC5.object_w = 2 ∧
    objC5.matAt 0 0 = .Stein ∧ objC5.matAt 0 1 = .Luft ∧
    objC5.matAt 1 0 = .Stein ∧ objC5.matAt 1 1 = .Stein := by
  refine ⟨by decide, by decide, by decide, by decide, by decide, by decide⟩

/-- C5 evaluated at the failing input.  The object (built by
`new_from_fragment` from `fragListC5`, grid row 0 = `[Stein, Luft]`, row 1
= `[Stein, Stein]`) has a non-air up neighbor above `(0,0)` whose
Stein–Stein bond strength 80 is exceeded by the force 100 at row 0, yet
`check_fracture` reports no broken bond at all: the `continue` taken for
the air right neighbor of `(0,0)` skips the up-neighbor test. -/
theorem C5_up_check_skipped :
    Object.new_from_fragment 1 0 fragListC5 (0, 0) = some objC5 ∧
    objC5.check_fracture 100 1 = [] ∧
    (objC5.matAt 0 0, objC5.matAt 1 0, objC5.matAt 0 1)
      = (MaterialTyp.Stein, MaterialTyp.Stein, MaterialTyp.Luft) ∧
    (100 : ℚ) * 1 * (1 / ((0 : ℚ) + 1))
      > Object.calc_bond_strength MaterialTyp.Stein MaterialTyp.Stein := by
  obtain ⟨hh, hw, h00, h01, h10, h11⟩ := objC5_dims_mats
  refine ⟨rfl, ?_, by decide, ?_⟩
  · rw [Object.check_fracture, hh, hw]
    norm_num [List.range_succ, h00, h01, h10, h11,
      Object.calc_bond_strength, MaterialTyp.binding_strength]
  · norm_num [Object.calc_bond_strength, MaterialTyp.binding_strength]

/-- C4 as stated is false for `checkPressureFracture`: a 4×1 sand column
in an empty world has zero external pressure above its single column, yet
its own accumulated self-weight (3 > bond strength 2) breaks the lowest
vertical bond. -/
theorem C4_counterexample :
    (Object.new 1 0 (0, 0) (0, 0) MaterialTyp.Sand 4 1).calc_pressure_per_column
        (World.new 5 5) = [0] ∧
    (Object.new 1 0 (0, 0) (0, 0) MaterialTyp.Sand 4 1).check_pressure_fracture
        (World.new 5 5) = [((0, 0), (1, 0))] := by
  have hcol : (Object.new 1 0 (0, 0) (0, 0) MaterialTyp.Sand 4 1).calc_pressure_per_column
      (World.new 5 5) = [0] := by
    norm_num [Object.calc_pressure_per_column, Object.new, World.new, ratToUsize,
      List.range_succ]
  refine ⟨hcol, ?_⟩
  rw [Object.check_pressure_fracture]
  simp only [hcol]
  norm_num [List.range_succ, pressureColumnGo, matAt_new, mass_new,
    objH_new, objW_new, Object.calc_bond_strength, MaterialTyp.binding_strength,
    MaterialTyp.density,
    show MaterialTyp.Sand ≠ MaterialTyp.Luft from (by decide),
    show ¬ MaterialTyp.Sand = MaterialTyp.Luft from (by decide)]

theorem pressureColumnGo_nil (o : Object) (j : ℕ)
    (H : ∀ i, i < o.object_h → o.matAt i j ≠ MaterialTyp.Luft →
      (0 < i → o.matAt (i - 1) j ≠ MaterialTyp.Luft →
        o.weightAbove i j ≤ Object.calc_bond_strength (o.matAt i j) (o.matAt (i - 1) j)) ∧
      (j + 1 < o.object_w → o.matAt i (j + 1) ≠ MaterialTyp.Luft →
        o.weightAbove i j ≤ Object.calc_bond_strength (o.matAt i j) (o.matAt i (j + 1)))) :
    ∀ k, k ≤ o.object_h →
      pressureColumnGo o j
        (∑ i' ∈ Finset.Ico k o.object_h,
          (if o.matAt i' j ≠ MaterialTyp.Luft then (o.matAt i' j).density else 0))
        (List.range k).reverse = [] := by
  intro k
  induction k with
  | zero => intro _; rfl
  | succ n ih =>
    intro hk
    rw [List.range_succ]
    simp only [List.reverse_append, List.reverse_cons, List.reverse_nil,
      List.nil_append, List.singleton_append]
    have hstep : (∑ i' ∈ Finset.Ico n o.object_h,
        (if o.matAt i' j ≠ MaterialTyp.Luft then (o.matAt i' j).density else 0))
        = (if o.matAt n j ≠ MaterialTyp.Luft then (o.matAt n j).density else 0)
          + ∑ i' ∈ Finset.Ico (n + 1) o.object_h,
            (if o.matAt i' j ≠ MaterialTyp.Luft then (o.matAt i' j).density else 0) :=
      Finset.sum_eq_sum_Ico_succ_bot (by omega) _
  -- the accumulator entering row `n` is exactly `weightAbove n j`
    have hacc : (∑ i' ∈ Finset.Ico (n + 1) o.object_h,
        (if o.matAt i' j ≠ MaterialTyp.Luft then (o.matAt i' j).density else 0))
        = o.weightAbove n j := rfl
    by_cases hair : o.matAt n j = MaterialTyp.Luft
    · rw [pressureColumnGo, if_pos hair]
      have : (∑ i' ∈ Finset.Ico (n + 1) o.object_h,
          (if o.matAt i' j ≠ MaterialTyp.Luft then (o.matAt i' j).density else 0))
          = ∑ i' ∈ Finset.Ico n o.object_h,
            (if o.matAt i' j ≠ MaterialTyp.Luft then (o.matAt i' j).density else 0) := by
        rw [hstep, if_neg (by simpa using hair)]
        ring
      rw [this]
      exact ih (by omega)
    · rw [pressureColumnGo, if_neg hair]
      have hH := H n (by omega) hair
      have hv : (if 0 < n ∧ o.matAt (n - 1) j ≠ MaterialTyp.Luft ∧
          (∑ i' ∈ Finset.Ico (n + 1) o.object_h,
            (if o.matAt i' j ≠ MaterialTyp.Luft then (o.matAt i' j).density else 0))
            > Object.calc_bond_strength (o.matAt n j) (o.matAt (n - 1) j)
          then [((n - 1, j), (n, j))] else ([] : List Bond)) = [] := by
        rw [if_neg]
        rintro ⟨h1, h2, h3⟩
        rw [hacc] at h3
        exact absurd h3 (not_lt.mpr (hH.1 h1 h2))
      have hh : (if j + 1 < o.object_w ∧ o.matAt n (j + 1) ≠ MaterialTyp.Luft ∧
          (∑ i' ∈ Finset.Ico (n + 1) o.object_h,
            (if o.matAt i' j ≠ MaterialTyp.Luft then (o.matAt i' j).density else 0))
            > Object.calc_bond_strength (o.matAt n j) (o.matAt n (j + 1))
          then [((n, j), (n, j + 1))] else ([] : List Bond)) = [] := by
        rw [if_neg]
        rintro ⟨h1, h2, h3⟩
        rw [hacc] at h3
        exact absurd h3 (not_lt.mpr (hH.2 h1 h2))
      rw [hv, hh, List.nil_append, List.nil_append]
      have hmass : (∑ i' ∈ Finset.Ico (n + 1) o.object_h,
          (if o.matAt i' j ≠ MaterialTyp.Luft then (o.matAt i' j).density else 0))
          + (o.object_grid n j).1.mass
          = ∑ i' ∈ Finset.Ico n o.object_h,
            (if o.matAt i' j ≠ MaterialTyp.Luft then (o.matAt i' j).density else 0) := by
        rw [hstep, if_pos (by simpa using hair)]
        show _ + (o.object_grid n j).1.material.density = _
        show _ + (o.matAt n j).density = _
        ring
      rw [hmass]
      exact ih (by omega)

/-- C4 (amended): `checkFracture(force = 0, dampening = anything)` returns
an empty broken-bond list for any object; `checkPressureFracture` with
zero external pressure above every column returns an empty list provided,
additionally, no cell's accumulated self-weight (the summed masses of the
non-air cells above it in its own column) exceeds the strength of a bond
tested at that cell — without that proviso the object can crush under its
own weight (see the counterexample). -/
theorem C4_amended :
    (∀ (o : Object) (d : ℚ), o.check_fracture 0 d = []) ∧
    (∀ (o : Object) (w : World),
      (∀ q ∈ o.calc_pressure_per_column w, q = 0) →
      (∀ i j, i < o.object_h → j < o.object_w → o.matAt i j ≠ MaterialTyp.Luft →
        (0 < i → o.matAt (i - 1) j ≠ MaterialTyp.Luft →
          o.weightAbove i j ≤ Object.calc_bond_strength (o.matAt i j) (o.matAt (i - 1) j)) ∧
        (j + 1 < o.object_w → o.matAt i (j + 1) ≠ MaterialTyp.Luft →
          o.weightAbove i j ≤ Object.calc_bond_strength (o.matAt i j) (o.matAt i (j + 1)))) →
      o.check_pressure_fracture w = []) := by
  constructor
  · intro o d
    rw [Object.check_fracture]
    apply flatMap_nil_of
    intro i hi
    apply flatMap_nil_of
    intro j hj
    have hnot : ∀ a b : MaterialTyp, ¬ ((0 : ℚ) > Object.calc_bond_strength a b) :=
      fun a b h => absurd h (not_lt.mpr (calc_bond_strength_nonneg a b))
    simp [hnot]
  · intro o w hext H
    rw [Object.check_pressure_fracture]
    apply flatMap_nil_of
    intro j hjmem
    have hj : j < o.object_w := List.mem_range.mp hjmem
    have hgd : (o.calc_pressure_per_column w).getD j 0 = 0 :=
      getD_zero_of_all _ hext j
    rw [hgd]
    have h0 : (0 : ℚ) = ∑ i' ∈ Finset.Ico o.object_h o.object_h,
        (if o.matAt i' j ≠ MaterialTyp.Luft then (o.matAt i' j).density else 0) := by
      simp
    rw [h0]
    exact pressureColumnGo_nil o j (fun i hi hair => H i j hi hj hair) o.object_h le_rfl

/-- Witness for `C4_amended` at a concrete input: a 1×1 stone block in an
empty world satisfies both hypotheses, so neither a zero-force impact nor
zero external pressure breaks any bond. -/
theorem C4_witness :
    (Object.new 2 0 (0, 0) (0, 0) MaterialTyp.Stein 1 1).check_fracture 0 7 = [] ∧
    (∀ q ∈ (Object.new 2 0 (0, 0) (0, 0) MaterialTyp.Stein 1 1).calc_pressure_per_column
        (World.new 5 5), q = 0) ∧
    (Object.new 2 0 (0, 0) (0, 0) MaterialTyp.Stein 1 1).check_pressure_fracture
        (World.new 5 5) = [] := by
  have hext : ∀ q ∈ (Object.new 2 0 (0, 0) (0, 0) MaterialTyp.Stein 1 1).calc_pressure_per_column
      (World.new 5 5), q = 0 := by
    norm_num [Object.calc_pressure_per_column, Object.new, World.new, ratToUsize,
      List.range_succ]
  refine ⟨C4_amended.1 _ 7, hext, C4_amended.2 _ _ hext ?_⟩
  intro i j hi hj hair
  have hi1 : i < 1 := hi
  have hj1 : j < 1 := hj
  constructor
  · intro h1 _
    exact absurd h1 (by omega)
  · intro h1 _
    have h1' : j + 1 < 1 := h1
    exact absurd h1' (by omega)

/-! ## Claim C7 -/

theorem ratToI32_natCast (n : ℕ) : ratToI32 (n : ℚ) = (n : ℤ) := by
  unfold ratToI32
  rw [if_neg (not_lt.mpr (Nat.cast_nonneg n))]
  exact_mod_cast Int.floor_natCast n

theorem ratToUsize_natCast (n : ℕ) : ratToUsize (n : ℚ) = n := by
  unfold ratToUsize
  rw [if_neg (not_lt.mpr (Nat.cast_nonneg n))]
  rw [Int.floor_natCast]
  exact Int.toNat_natCast n

theorem obind_some {α β : Type} (x : α) (f : α → Option β) :
    ((some x) >>= f) = f x := rfl

theorem writeCell_isSome (w : World) (x y : ℕ) (f : Cell → Cell)
    (hx : x < w.width) (hy : y < w.height) :
    ∃ w', w.writeCell x y f = some w' ∧ w'.height = w.height ∧ w'.width = w.width := by
  refine ⟨_, if_pos ⟨hy, hx⟩, rfl, rfl⟩

/-- C7 as stated is false: `fall_down` never consults `is_solid`, so a
solid (Stein) particle whose straight-down cell is occupied moves
diagonally down-left, changing its `x` coordinate from 1 to 0. -/
theorem C7_counterexample :
    MaterialTyp.Stein.is_solid = true ∧
    ((Particle.new 1 (1, 1) (0, 0) MaterialTyp.Stein (ParticleRef.Free 0)).fall_down
        blockWorld).map (fun r => r.1.position) = some (0, 0) := by
  refine ⟨rfl, ?_⟩
  norm_num [Particle.fall_down, Particle.new, Particle.mass, ratToI32, ratToUsize,
    blockWorld, World.give_occupation_on_position, World.clear_occupation_on_position,
    World.clear_mass_on_position, World.update_occupation_on_position,
    World.update_mass_on_position, World.writeCell, Option.bind,
    Option.some_ne_none]

/-- C7 (amended): `fallDown` applies the same rule to every material —
the source never consults `is_solid`, and none of the four branches below
depends on the material (which is preserved).  For a particle at integer
in-range position `(a, b)` with `b ≥ 1`, `fallDown` succeeds and follows
exactly this priority rule: if the cell directly below is unoccupied the
particle moves one cell straight down; otherwise, if down-left exists
(`0 < a`) and is unoccupied it moves down-left; otherwise, if down-right
exists (`a + 1 < width`) and is unoccupied it moves down-right; otherwise
particle and world are returned unchanged.  In particular a solid
particle's `x` coordinate CAN change (see the counterexample). -/
theorem C7_amended (p : Particle) (w : World) (a b : ℕ)
    (hpos : p.position = ((a : ℚ), (b : ℚ)))
    (ha : a < w.width) (hb : b < w.height) (hb1 : 1 ≤ b) :
    ∃ r, p.fall_down w = some r ∧
      (w.give_occupation_on_position a (b - 1) = none →
        r.1.position = ((a : ℚ), (b : ℚ) - 1)) ∧
      (¬w.give_occupation_on_position a (b - 1) = none →
        (0 < a ∧ w.give_occupation_on_position (a - 1) (b - 1) = none) →
        r.1.position = ((a : ℚ) - 1, (b : ℚ) - 1)) ∧
      (¬w.give_occupation_on_position a (b - 1) = none →
        ¬(0 < a ∧ w.give_occupation_on_position (a - 1) (b - 1) = none) →
        (a + 1 < w.width ∧ w.give_occupation_on_position (a + 1) (b - 1) = none) →
        r.1.position = ((a : ℚ) + 1, (b : ℚ) - 1)) ∧
      (¬w.give_occupation_on_position a (b - 1) = none →
        ¬(0 < a ∧ w.give_occupation_on_position (a - 1) (b - 1) = none) →
        ¬(a + 1 < w.width ∧ w.give_occupation_on_position (a + 1) (b - 1) = none) →
        r = (p, w)) ∧
      r.1.material = p.material := by
  have hcb : ((b : ℚ) - 1) = ((b - 1 : ℕ) : ℚ) := by
    rw [Nat.cast_sub hb1, Nat.cast_one]
  have hbh : b - 1 < w.height := by omega
  rw [Particle.fall_down]
  simp only [hpos, ratToI32_natCast, Int.toNat_natCast,
    show ((b : ℤ) - 1).toNat = b - 1 from by omega,
    show ((a : ℤ) - 1).toNat = a - 1 from by omega,
    show ((a : ℤ) + 1).toNat = a + 1 from by omega,
    Int.natCast_pos,
    show ((a : ℤ) < (w.width : ℤ) - 1) ↔ a + 1 < w.width from by omega]
  rw [if_neg (by omega : ¬ ((b : ℤ) ≤ 0))]
  by_cases h1 : w.give_occupation_on_position a (b - 1) = none
  · rw [if_pos h1]
    obtain ⟨w1, e1, hh1, hw1⟩ :=
      writeCell_isSome w a b (fun c => (none, c.2.1, c.2.2)) ha hb
    have e1' : w.clear_occupation_on_position ((a : ℚ), (b : ℚ)) = some w1 := by
      show w.writeCell (ratToUsize (a : ℚ)) (ratToUsize (b : ℚ)) _ = some w1
      rw [ratToUsize_natCast, ratToUsize_natCast]
      exact e1
    obtain ⟨w2, e2, hh2, hw2⟩ :=
      writeCell_isSome w1 a b (fun c => (c.1, 0, c.2.2)) (hw1 ▸ ha) (hh1 ▸ hb)
    have e2' : w1.clear_mass_on_position ((a : ℚ), (b : ℚ)) = some w2 := by
      show w1.writeCell (ratToUsize (a : ℚ)) (ratToUsize (b : ℚ)) _ = some w2
      rw [ratToUsize_natCast, ratToUsize_natCast]
      exact e2
    obtain ⟨w3, e3, hh3, hw3⟩ :=
      writeCell_isSome w2 a (b - 1) (fun c => (some p.particle_ref, c.2.1, c.2.2))
        (hw2 ▸ hw1 ▸ ha) (hh2 ▸ hh1 ▸ hbh)
    have e3' : w2.update_occupation_on_position ((a : ℚ), (b : ℚ) - 1)
        p.particle_ref = some w3 := by
      show w2.writeCell (ratToUsize (a : ℚ)) (ratToUsize ((b : ℚ) - 1)) _ = some w3
      rw [hcb, ratToUsize_natCast, ratToUsize_natCast]
      exact e3
    obtain ⟨w4, e4, hh4, hw4⟩ :=
      writeCell_isSome w3 a (b - 1)
        (fun c => (c.1, Particle.mass { p with position := ((a : ℚ), (b : ℚ) - 1) }, c.2.2))
        (hw3 ▸ hw2 ▸ hw1 ▸ ha) (hh3 ▸ hh2 ▸ hh1 ▸ hbh)
    have e4' : w3.update_mass_on_position ((a : ℚ), (b : ℚ) - 1)
        (Particle.mass { p with position := ((a : ℚ), (b : ℚ) - 1) }) = some w4 := by
      show w3.writeCell (ratToUsize (a : ℚ)) (ratToUsize ((b : ℚ) - 1)) _ = some w4
      rw [hcb, ratToUsize_natCast, ratToUsize_natCast]
      exact e4
    refine ⟨({ p with position := ((a : ℚ), (b : ℚ) - 1) }, w4), ?_, fun _ => rfl,
      fun hno _ => absurd h1 hno, fun hno _ _ => absurd h1 hno,
      fun hno _ _ => absurd h1 hno, rfl⟩
    rw [e1', obind_some, e2', obind_some, e3', obind_some, e4', obind_some]
  · rw [if_neg h1]
    by_cases h2 : 0 < a ∧ w.give_occupation_on_position (a - 1) (b - 1) = none
    · rw [if_pos h2]
      have hca : ((a : ℚ) - 1) = ((a - 1 : ℕ) : ℚ) := by
        rw [Nat.cast_sub h2.1, Nat.cast_one]
      have haw : a - 1 < w.width := by omega
      obtain ⟨w1, e1, hh1, hw1⟩ :=
        writeCell_isSome w a b (fun c => (none, c.2.1, c.2.2)) ha hb
      have e1' : w.clear_occupation_on_position ((a : ℚ), (b : ℚ)) = some w1 := by
        show w.writeCell (ratToUsize (a : ℚ)) (ratToUsize (b : ℚ)) _ = some w1
        rw [ratToUsize_natCast, ratToUsize_natCast]
        exact e1
      obtain ⟨w2, e2, hh2, hw2⟩ :=
        writeCell_isSome w1 a b (fun c => (c.1, 0, c.2.2)) (hw1 ▸ ha) (hh1 ▸ hb)
      have e2' : w1.clear_mass_on_position ((a : ℚ), (b : ℚ)) = some w2 := by
        show w1.writeCell (ratToUsize (a : ℚ)) (ratToUsize (b : ℚ)) _ = some w2
        rw [ratToUsize_natCast, ratToUsize_natCast]
        exact e2
      obtain ⟨w3, e3, hh3, hw3⟩ :=
        writeCell_isSome w2 (a - 1) (b - 1) (fun c => (some p.particle_ref, c.2.1, c.2.2))
          (hw2 ▸ hw1 ▸ haw) (hh2 ▸ hh1 ▸ hbh)
      have e3' : w2.update_occupation_on_position ((a : ℚ) - 1, (b : ℚ) - 1)
          p.particle_ref = some w3 := by
        show w2.writeCell (ratToUsize ((a : ℚ) - 1)) (ratToUsize ((b : ℚ) - 1)) _ = some w3
        rw [hca, hcb, ratToUsize_natCast, ratToUsize_natCast]
        exact e3
      obtain ⟨w4, e4, hh4, hw4⟩ :=
        writeCell_isSome w3 (a - 1) (b - 1)
          (fun c => (c.1, Particle.mass { p with position := ((a : ℚ) - 1, (b : ℚ) - 1) }, c.2.2))
          (hw3 ▸ hw2 ▸ hw1 ▸ haw) (hh3 ▸ hh2 ▸ hh1 ▸ hbh)
      have e4' : w3.update_mass_on_position ((a : ℚ) - 1, (b : ℚ) - 1)
          (Particle.mass { p with position := ((a : ℚ) - 1, (b : ℚ) - 1) }) = some w4 := by
        show w3.writeCell (ratToUsize ((a : ℚ) - 1)) (ratToUsize ((b : ℚ) - 1)) _ = some w4
        rw [hca, hcb, ratToUsize_natCast, ratToUsize_natCast]
        exact e4
      refine ⟨({ p with position := ((a : ℚ) - 1, (b : ℚ) - 1) }, w4), ?_,
        fun hc => absurd hc h1, fun _ _ => rfl,
        fun _ hn2 _ => absurd h2 hn2, fun _ hn2 _ => absurd h2 hn2, rfl⟩
      rw [e1', obind_some, e2', obind_some, e3', obind_some, e4', obind_some]
    · rw [if_neg h2]
      by_cases h3 : a + 1 < w.width ∧
          w.give_occupation_on_position (a + 1) (b - 1) = none
      · rw [if_pos h3]
        have hca : ((a : ℚ) + 1) = ((a + 1 : ℕ) : ℚ) := by
          rw [Nat.cast_add, Nat.cast_one]
        obtain ⟨w1, e1, hh1, hw1⟩ :=
          writeCell_isSome w a b (fun c => (none, c.2.1, c.2.2)) ha hb
        have e1' : w.clear_occupation_on_position ((a : ℚ), (b : ℚ)) = some w1 := by
          show w.writeCell (ratToUsize (a : ℚ)) (ratToUsize (b : ℚ)) _ = some w1
          rw [ratToUsize_natCast, ratToUsize_natCast]
          exact e1
        obtain ⟨w2, e2, hh2, hw2⟩ :=
          writeCell_isSome w1 a b (fun c => (c.1, 0, c.2.2)) (hw1 ▸ ha) (hh1 ▸ hb)
        have e2' : w1.clear_mass_on_position ((a : ℚ), (b : ℚ)) = some w2 := by
          show w1.writeCell (ratToUsize (a : ℚ)) (ratToUsize (b : ℚ)) _ = some w2
          rw [ratToUsize_natCast, ratToUsize_natCast]
          exact e2
        obtain ⟨w3, e3, hh3, hw3⟩ :=
          writeCell_isSome w2 (a + 1) (b - 1) (fun c => (some p.particle_ref, c.2.1, c.2.2))
            (hw2 ▸ hw1 ▸ h3.1) (hh2 ▸ hh1 ▸ hbh)
        have e3' : w2.update_occupation_on_position ((a : ℚ) + 1, (b : ℚ) - 1)
            p.particle_ref = some w3 := by
          show w2.writeCell (ratToUsize ((a : ℚ) + 1)) (ratToUsize ((b : ℚ) - 1)) _ = some w3
          rw [hca, hcb, ratToUsize_natCast, ratToUsize_natCast]
          exact e3
        obtain ⟨w4, e4, hh4, hw4⟩ :=
          writeCell_isSome w3 (a + 1) (b - 1)
            (fun c => (c.1, Particle.mass { p with position := ((a : ℚ) + 1, (b : ℚ) - 1) }, c.2.2))
            (hw3 ▸ hw2 ▸ hw1 ▸ h3.1) (hh3 ▸ hh2 ▸ hh1 ▸ hbh)
        have e4' : w3.update_mass_on_position ((a : ℚ) + 1, (b : ℚ) - 1)
            (Particle.mass { p with position := ((a : ℚ) + 1, (b : ℚ) - 1) }) = some w4 := by
          show w3.writeCell (ratToUsize ((a : ℚ) + 1)) (ratToUsize ((b : ℚ) - 1)) _ = some w4
          rw [hca, hcb, ratToUsize_natCast, ratToUsize_natCast]
          exact e4
        refine ⟨({ p with position := ((a : ℚ) + 1, (b : ℚ) - 1) }, w4), ?_,
          fun hc => absurd hc h1, fun _ h2' => absurd h2' h2,
          fun _ _ _ => rfl, fun _ _ hn3 => absurd h3 hn3, rfl⟩
        rw [e1', obind_some, e2', obind_some, e3', obind_some, e4', obind_some]
      · rw [if_neg h3]
        exact ⟨(p, w), rfl, fun hc => absurd hc h1, fun _ h2' => absurd h2' h2,
          fun _ _ h3' => absurd h3' h3, fun _ _ _ => rfl, rfl⟩

/-- Witness for `C7_amended` at a concrete input: a solid (`Stein`)
particle at `(1, 1)` in `blockWorld`, whose straight-down cell is occupied
and whose down-left cell is free. -/
theorem C7_witness :
    (Particle.new 9 (((1 : ℕ) : ℚ), ((1 : ℕ) : ℚ)) (0, 0) MaterialTyp.Stein
        (ParticleRef.Free 0)).position = (((1 : ℕ) : ℚ), ((1 : ℕ) : ℚ)) ∧
    (1 : ℕ) < blockWorld.width ∧ (1 : ℕ) < blockWorld.height ∧ (1 : ℕ) ≤ 1 ∧
    (∃ r, (Particle.new 9 (((1 : ℕ) : ℚ), ((1 : ℕ) : ℚ)) (0, 0) MaterialTyp.Stein
        (ParticleRef.Free 0)).fall_down blockWorld = some r ∧
      (blockWorld.give_occupation_on_position 1 (1 - 1) = none →
        r.1.position = (((1 : ℕ) : ℚ), ((1 : ℕ) : ℚ) - 1)) ∧
      (¬blockWorld.give_occupation_on_position 1 (1 - 1) = none →
        (0 < 1 ∧ blockWorld.give_occupation_on_position (1 - 1) (1 - 1) = none) →
        r.1.position = (((1 : ℕ) : ℚ) - 1, ((1 : ℕ) : ℚ) - 1)) ∧
      (¬blockWorld.give_occupation_on_position 1 (1 - 1) = none →
        ¬(0 < 1 ∧ blockWorld.give_occupation_on_position (1 - 1) (1 - 1) = none) →
        (1 + 1 < blockWorld.width ∧
          blockWorld.give_occupation_on_position (1 + 1) (1 - 1) = none) →
        r.1.position = (((1 : ℕ) : ℚ) + 1, ((1 : ℕ) : ℚ) - 1)) ∧
      (¬blockWorld.give_occupation_on_position 1 (1 - 1) = none →
        ¬(0 < 1 ∧ blockWorld.give_occupation_on_position (1 - 1) (1 - 1) = none) →
        ¬(1 + 1 < blockWorld.width ∧
          blockWorld.give_occupation_on_position (1 + 1) (1 - 1) = none) →
        r = (Particle.new 9 (((1 : ℕ) : ℚ), ((1 : ℕ) : ℚ)) (0, 0) MaterialTyp.Stein
          (ParticleRef.Free 0), blockWorld)) ∧
      r.1.material = (Particle.new 9 (((1 : ℕ) : ℚ), ((1 : ℕ) : ℚ)) (0, 0)
        MaterialTyp.Stein (ParticleRef.Free 0)).material) :=
  ⟨rfl, by norm_num [blockWorld], by norm_num [blockWorld], le_rfl,
    C7_amended _ _ 1 1 rfl (by norm_num [blockWorld]) (by norm_num [blockWorld]) le_rfl⟩

/-! ## Claim C9 -/

theorem writeCell_grid (w : World) (x y : ℕ) (f : Cell → Cell) (w' : World)
    (h : w.writeCell x y f = some w') :
    w'.grid y x = f (w.grid y x) ∧
    ∀ y' x', ¬(y' = y ∧ x' = x) → w'.grid y' x' = w.grid y' x' := by
  unfold World.writeCell at h
  split at h
  · cases h
    refine ⟨by simp, ?_⟩
    intro y' x' hne
    simp only []
    rw [if_neg]
    tauto
  · cases h

theorem clear_fold (o : Object) (wref : World) :
    ∀ (L : List (ℕ × ℕ)) (v : World), v.height = wref.height → v.width = wref.width →
      (∀ c ∈ L, ratToUsize (o.object_grid c.1 c.2).1.position.1 < wref.width ∧
        ratToUsize (o.object_grid c.1 c.2).1.position.2 < wref.height) →
      (L.foldlM (fun wacc c => do
          let w1 ← wacc.clear_occupation_on_position (o.object_grid c.1 c.2).1.position
          w1.clear_mass_on_position (o.object_grid c.1 c.2).1.position) v)
        = some ⟨v.height, v.width, fun y x =>
            if ∃ c ∈ L, ratToUsize (o.object_grid c.1 c.2).1.position.1 = x ∧
                ratToUsize (o.object_grid c.1 c.2).1.position.2 = y
            then (none, 0, (v.grid y x).2.2)
            else v.grid y x⟩ := by
  intro L
  induction L with
  | nil =>
    intro v hvh hvw _
    rw [List.foldlM_nil]
    have hgrid : (fun y x =>
        if ∃ c ∈ ([] : List (ℕ × ℕ)),
            ratToUsize (o.object_grid c.1 c.2).1.position.1 = x ∧
            ratToUsize (o.object_grid c.1 c.2).1.position.2 = y
        then ((none : Option ParticleRef), (0 : ℚ), (v.grid y x).2.2)
        else v.grid y x) = v.grid := by
      funext y x
      simp
    rw [hgrid]
    rfl
  | cons c L ih =>
    intro v hvh hvw hin
    obtain ⟨hcx, hcy⟩ := hin c (by simp)
    rw [List.foldlM_cons]
    obtain ⟨v1, e1, hh1, hw1⟩ := writeCell_isSome v
      (ratToUsize (o.object_grid c.1 c.2).1.position.1)
      (ratToUsize (o.object_grid c.1 c.2).1.position.2)
      (fun cl => (none, cl.2.1, cl.2.2)) (by rw [hvw]; exact hcx) (by rw [hvh]; exact hcy)
    obtain ⟨v2, e2, hh2, hw2⟩ := writeCell_isSome v1
      (ratToUsize (o.object_grid c.1 c.2).1.position.1)
      (ratToUsize (o.object_grid c.1 c.2).1.position.2)
      (fun cl => (cl.1, 0, cl.2.2)) (by rw [hw1, hvw]; exact hcx) (by rw [hh1, hvh]; exact hcy)
    have e1' : v.clear_occupation_on_position (o.object_grid c.1 c.2).1.position = some v1 :=
      e1
    have e2' : v1.clear_mass_on_position (o.object_grid c.1 c.2).1.position = some v2 :=
      e2
    rw [e1', obind_some, e2', obind_some]
    rw [ih v2 (by rw [hh2, hh1, hvh]) (by rw [hw2, hw1, hvw])
      (fun d hd => hin d (by simp [hd]))]
    refine congrArg some ?_
    obtain ⟨hg1, hr1⟩ := writeCell_grid v _ _ _ v1 e1
    obtain ⟨hg2, hr2⟩ := writeCell_grid v1 _ _ _ v2 e2
    have hgfun : (fun y x =>
        if ∃ d ∈ L, ratToUsize (o.object_grid d.1 d.2).1.position.1 = x ∧
            ratToUsize (o.object_grid d.1 d.2).1.position.2 = y
        then ((none : Option ParticleRef), (0 : ℚ), (v2.grid y x).2.2)
        else v2.grid y x)
        = (fun y x =>
        if ∃ d ∈ c :: L, ratToUsize (o.object_grid d.1 d.2).1.position.1 = x ∧
            ratToUsize (o.object_grid d.1 d.2).1.position.2 = y
        then ((none : Option ParticleRef), (0 : ℚ), (v.grid y x).2.2)
        else v.grid y x) := by
      funext y x
      by_cases hc : ratToUsize (o.object_grid c.1 c.2).1.position.1 = x ∧
          ratToUsize (o.object_grid c.1 c.2).1.position.2 = y
      · obtain ⟨hcx', hcy'⟩ := hc
        subst hcx'
        subst hcy'
        have hv2c : v2.grid (ratToUsize (o.object_grid c.1 c.2).1.position.2)
            (ratToUsize (o.object_grid c.1 c.2).1.position.1)
            = (none, 0, (v.grid (ratToUsize (o.object_grid c.1 c.2).1.position.2)
                (ratToUsize (o.object_grid c.1 c.2).1.position.1)).2.2) := by
          rw [hg2, hg1]
        have hmem : ∃ d ∈ c :: L,
            ratToUsize (o.object_grid d.1 d.2).1.position.1
              = ratToUsize (o.object_grid c.1 c.2).1.position.1 ∧
            ratToUsize (o.object_grid d.1 d.2).1.position.2
              = ratToUsize (o.object_grid c.1 c.2).1.position.2 :=
          ⟨c, by simp, rfl, rfl⟩
        rw [if_pos hmem]
        by_cases hL : ∃ d ∈ L,
            ratToUsize (o.object_grid d.1 d.2).1.position.1
              = ratToUsize (o.object_grid c.1 c.2).1.position.1 ∧
            ratToUsize (o.object_grid d.1 d.2).1.position.2
              = ratToUsize (o.object_grid c.1 c.2).1.position.2
        · rw [if_pos hL, hv2c]
        · rw [if_neg hL, hv2c]
      · have hstep : v2.grid y x = v.grid y x := by
          rw [hr2 y x (fun hcon => hc ⟨hcon.2.symm, hcon.1.symm⟩),
            hr1 y x (fun hcon => hc ⟨hcon.2.symm, hcon.1.symm⟩)]
        have hiff : (∃ d ∈ c :: L,
            ratToUsize (o.object_grid d.1 d.2).1.position.1 = x ∧
            ratToUsize (o.object_grid d.1 d.2).1.position.2 = y)
            ↔ (∃ d ∈ L, ratToUsize (o.object_grid d.1 d.2).1.position.1 = x ∧
                ratToUsize (o.object_grid d.1 d.2).1.position.2 = y) := by
          constructor
          · rintro ⟨d, hd, hdc⟩
            rcases List.mem_cons.mp hd with rfl | hd'
            · exact absurd hdc hc
            · exact ⟨d, hd', hdc⟩
          · rintro ⟨d, hd, hdc⟩
            exact ⟨d, by simp [hd], hdc⟩
        rw [if_congr hiff rfl rfl, hstep]
    rw [hh2, hh1, hw2, hw1, hgfun]

/-- C9 as stated is false: `clear_from_world` iterates over every grid
cell with no `Luft` filter.  `objC9` has an air hole at local cell
`(0, 1)` whose stored world position is `(1, 0)`; clearing it wipes the
foreign static occupant of mass 1000 that `blockWorld` holds there,
although the claim says cells at air-hole positions are left unchanged. -/
theorem C9_counterexample :
    objC9.matAt 0 1 = MaterialTyp.Luft ∧
    (objC9.clear_from_world blockWorld).map (fun w => w.grid 0 1)
      = some (none, 0, 0) ∧
    blockWorld.grid 0 1 = (some ParticleRef.Static, 1000, 0) := by
  refine ⟨by decide, by decide, rfl⟩

/-- C9 (amended): `clearFromWorld` clears occupancy and mass at the world
cell addressed by the stored position of EVERY object-grid cell — air
holes included, since the source has no material filter here — leaving
pressure and all other cells unchanged (provided every stored position is
in range; an out-of-range position would panic). -/
theorem C9_amended (o : Object) (w : World)
    (hin : ∀ i j, i < o.object_h → j < o.object_w →
      ratToUsize (o.object_grid i j).1.position.1 < w.width ∧
      ratToUsize (o.object_grid i j).1.position.2 < w.height) :
    o.clear_from_world w = some (o.clearedWorld w) := by
  have hmem : ∀ ij : ℕ × ℕ,
      ij ∈ (List.range o.object_h).flatMap
        (fun i => (List.range o.object_w).map (fun j => (i, j)))
      ↔ ij.1 < o.object_h ∧ ij.2 < o.object_w := by
    intro ij
    constructor
    · intro hij
      obtain ⟨i, hi, hj⟩ := List.mem_flatMap.mp hij
      obtain ⟨j, hj', hje⟩ := List.mem_map.mp hj
      rw [← hje]
      exact ⟨List.mem_range.mp hi, List.mem_range.mp hj'⟩
    · intro ⟨h1, h2⟩
      exact List.mem_flatMap.mpr ⟨ij.1, List.mem_range.mpr h1,
        List.mem_map.mpr ⟨ij.2, List.mem_range.mpr h2, rfl⟩⟩
  rw [Object.clear_from_world,
    clear_fold o w _ w rfl rfl
      (fun c hc => hin c.1 c.2 ((hmem c).mp hc).1 ((hmem c).mp hc).2)]
  refine congrArg some ?_
  unfold Object.clearedWorld
  have hgrid : (fun y x =>
      if ∃ c ∈ (List.range o.object_h).flatMap
          (fun i => (List.range o.object_w).map (fun j => (i, j))),
          ratToUsize (o.object_grid c.1 c.2).1.position.1 = x ∧
          ratToUsize (o.object_grid c.1 c.2).1.position.2 = y
      then ((none : Option ParticleRef), (0 : ℚ), (w.grid y x).2.2)
      else w.grid y x)
      = (fun y x =>
      if ∃ i < o.object_h, ∃ j < o.object_w,
          ratToUsize (o.object_grid i j).1.position.1 = x ∧
          ratToUsize (o.object_grid i j).1.position.2 = y
      then ((none : Option ParticleRef), (0 : ℚ), (w.grid y x).2.2)
      else w.grid y x) := by
    funext y x
    refine if_congr ?_ rfl rfl
    constructor
    · rintro ⟨c, hc, hco⟩
      exact ⟨c.1, ((hmem c).mp hc).1, c.2, ((hmem c).mp hc).2, hco⟩
    · rintro ⟨i, hi, j, hj, hco⟩
      exact ⟨(i, j), (hmem (i, j)).mpr ⟨hi, hj⟩, hco⟩
  rw [hgrid]

/-- Witness for `C9_amended` at a concrete input. -/
theorem C9_witness :
    (∀ i j, i < (Object.new 3 0 (0, 0) (0, 0) MaterialTyp.Holz 1 1).object_h →
      j < (Object.new 3 0 (0, 0) (0, 0) MaterialTyp.Holz 1 1).object_w →
      ratToUsize ((Object.new 3 0 (0, 0) (0, 0) MaterialTyp.Holz 1 1).object_grid i j).1.position.1
        < (World.new 2 2).width ∧
      ratToUsize ((Object.new 3 0 (0, 0) (0, 0) MaterialTyp.Holz 1 1).object_grid i j).1.position.2
        < (World.new 2 2).height) ∧
    (Object.new 3 0 (0, 0) (0, 0) MaterialTyp.Holz 1 1).clear_from_world (World.new 2 2)
      = some ((Object.new 3 0 (0, 0) (0, 0) MaterialTyp.Holz 1 1).clearedWorld (World.new 2 2)) := by
  have hin : ∀ i j, i < (Object.new 3 0 (0, 0) (0, 0) MaterialTyp.Holz 1 1).object_h →
      j < (Object.new 3 0 (0, 0) (0, 0) MaterialTyp.Holz 1 1).object_w →
      ratToUsize ((Object.new 3 0 (0, 0) (0, 0) MaterialTyp.Holz 1 1).object_grid i j).1.position.1
        < (World.new 2 2).width ∧
      ratToUsize ((Object.new 3 0 (0, 0) (0, 0) MaterialTyp.Holz 1 1).object_grid i j).1.position.2
        < (World.new 2 2).height := by
    intro i j hi hj
    have hi1 : i < 1 := hi
    have hj1 : j < 1 := hj
    interval_cases i
    interval_cases j
    constructor <;> norm_num [Object.new, Particle.new, ratToUsize, World.new]
  exact ⟨hin, C9_amended _ _ hin⟩

/-! ## Union-find theory for claims C1 and C6

Lemmas about the parent-array forest: `Reaches f x r` says the parent
chain from `x` ends at the root `r`. -/

theorem iterate_isUFRoot (f : ℕ → ℕ) (r : ℕ) (h : isUFRoot f r) :
    ∀ k, f^[k] r = r := by
  intro k
  induction k with
  | zero => rfl
  | succ m ih => rw [Function.iterate_succ_apply', ih, h]

theorem reaches_unique {f : ℕ → ℕ} {x r1 r2 : ℕ}
    (h1 : Reaches f x r1) (h2 : Reaches f x r2) : r1 = r2 := by
  obtain ⟨hr1, k1, e1⟩ := h1
  obtain ⟨hr2, k2, e2⟩ := h2
  rcases le_total k1 k2 with h | h
  · have : f^[k2] x = r1 := by
      rw [show k2 = (k2 - k1) + k1 from by omega, Function.iterate_add_apply, e1,
        iterate_isUFRoot f r1 hr1]
    rw [← this, e2]
  · have : f^[k1] x = r2 := by
      rw [show k1 = (k1 - k2) + k2 from by omega, Function.iterate_add_apply, e2,
        iterate_isUFRoot f r2 hr2]
    rw [← this, e1]

theorem reaches_step {f : ℕ → ℕ} {x r : ℕ} (h : Reaches f (f x) r) :
    Reaches f x r := by
  obtain ⟨hr, k, e⟩ := h
  exact ⟨hr, k + 1, by rw [Function.iterate_succ_apply]; exact e⟩

theorem reaches_self {f : ℕ → ℕ} {r : ℕ} (h : isUFRoot f r) : Reaches f r r :=
  ⟨h, 0, rfl⟩

theorem reaches_of_root_chain {f : ℕ → ℕ} {x r : ℕ} (k : ℕ)
    (hr : isUFRoot f r) (e : f^[k] x = r) : Reaches f x r := ⟨hr, k, e⟩

/-- A node's parent chain never returns to a non-root node. -/
theorem no_cycle {f : ℕ → ℕ} {x : ℕ} (hx : f x ≠ x)
    (hreach : ∃ r, Reaches f x r) : ∀ m, 1 ≤ m → f^[m] x ≠ x := by
  intro m hm hcyc
  obtain ⟨r, hr, k, e⟩ := hreach
  have hper : ∀ t, f^[t * m] x = x := by
    intro t
    induction t with
    | zero => simp
    | succ s ih =>
      rw [Nat.succ_mul, Function.iterate_add_apply, hcyc]
      exact ih
  have hbig : f^[(k + 1) * m] x = r := by
    have hkm : k + 1 ≤ (k + 1) * m := Nat.le_mul_of_pos_right (k + 1) (by omega)
    rw [show (k + 1) * m = ((k + 1) * m - k) + k from by omega,
      Function.iterate_add_apply, e, iterate_isUFRoot f r hr]
  rw [hper (k + 1)] at hbig
  subst hbig
  exact hx hr

theorem pget_out {p : List ℕ} {x : ℕ} (h : p.length ≤ x) : pget p x = x := by
  unfold pget
  rw [List.getD_eq_getElem?_getD, List.getElem?_eq_none h, Option.getD_none]

theorem pget_lt_of_ne {n : ℕ} {p : List ℕ} (hlen : p.length = n) {x : ℕ}
    (h : pget p x ≠ x) : x < n := by
  by_contra hc
  exact h (pget_out (by omega))

theorem pget_set (p : List ℕ) (a v z : ℕ) :
    pget (p.set a v) z = if z = a ∧ a < p.length then v else pget p z := by
  unfold pget
  rw [List.getD_eq_getElem?_getD, List.getD_eq_getElem?_getD, List.getElem?_set]
  by_cases hz : z = a ∧ a < p.length
  · rw [if_pos hz, if_pos hz.1.symm]
    rw [hz.1, if_pos hz.2]
    rfl
  · rw [if_neg hz]
    by_cases he : a = z
    · rw [if_pos he]
      have hge : ¬ a < p.length := fun hlt => hz ⟨he.symm, hlt⟩
      rw [if_neg hge,
        List.getElem?_eq_none (show p.length ≤ z from by omega)]
    · rw [if_neg he]

theorem UFWF_range (n : ℕ) : UFWF n (List.range n) := by
  have hp : ∀ x, pget (List.range n) x = x := by
    intro x
    by_cases hx : x < n
    · unfold pget
      rw [List.getD_eq_getElem?_getD, List.getElem?_range hx]
      rfl
    · exact pget_out (by simpa using hx)
  refine ⟨List.length_range n, fun x hx => by rw [hp]; exact hx, fun x => ?_⟩
  exact ⟨x, hp x, 0, rfl⟩

theorem reaches_lt {n : ℕ} {p : List ℕ} (hwf : UFWF n p) {x r : ℕ} (hx : x < n)
    (h : Reaches (pget p) x r) : r < n := by
  obtain ⟨hr, k, e⟩ := h
  have : ∀ m, (pget p)^[m] x < n := by
    intro m
    induction m with
    | zero => exact hx
    | succ j ih =>
      rw [Function.iterate_succ_apply']
      exact hwf.2.1 _ ih
  rw [← e]
  exact this k

/-- Fuel adequacy: in a well-formed forest over `0..n`, every chain
reaches its root within `n` steps (the chain's nodes are distinct
in-range nodes). -/
theorem root_within {n : ℕ} {p : List ℕ} (hwf : UFWF n p) (x : ℕ) :
    ∃ k ≤ n, isUFRoot (pget p) ((pget p)^[k] x) := by
  obtain ⟨r, hroot, k0, e0⟩ := hwf.2.2 x
  have hex : ∃ k, isUFRoot (pget p) ((pget p)^[k] x) :=
    ⟨k0, by rw [e0]; exact hroot⟩
  classical
  set k := Nat.find hex with hk
  have hkroot : isUFRoot (pget p) ((pget p)^[k] x) := Nat.find_spec hex
  have hmin : ∀ i, i < k → ¬ isUFRoot (pget p) ((pget p)^[i] x) :=
    fun i hi => Nat.find_min hex hi
  refine ⟨k, ?_, hkroot⟩
  by_contra hkn
  push_neg at hkn
  have hlt : ∀ i, i < k → (pget p)^[i] x < n := by
    intro i hi
    exact pget_lt_of_ne hwf.1 (hmin i hi)
  have hinj : Set.InjOn (fun i => (pget p)^[i] x) (Finset.range k) := by
    intro i hi j hj hij
    simp only [Finset.coe_sort_coe, Finset.mem_coe, Finset.mem_range] at hi hj
    have hij2 : (pget p)^[i] x = (pget p)^[j] x := hij
    by_contra hne
    rcases Nat.lt_or_ge i j with hij' | hij'
    · have : (pget p)^[i + (k - j)] x = (pget p)^[k] x := by
        have e1 : (pget p)^[i + (k - j)] x = (pget p)^[k - j] ((pget p)^[i] x) := by
          rw [show i + (k - j) = (k - j) + i from by omega,
            Function.iterate_add_apply]
        have e2 : (pget p)^[k] x = (pget p)^[k - j] ((pget p)^[j] x) := by
          conv_lhs => rw [show k = (k - j) + j from by omega]
          rw [Function.iterate_add_apply]
        rw [e1, e2, hij2]
      have hroot' : isUFRoot (pget p) ((pget p)^[i + (k - j)] x) := by
        rw [this]; exact hkroot
      exact hmin _ (by omega) hroot'
    · have hij'' : j < i := by omega
      have : (pget p)^[j + (k - i)] x = (pget p)^[k] x := by
        have e1 : (pget p)^[j + (k - i)] x = (pget p)^[k - i] ((pget p)^[j] x) := by
          rw [show j + (k - i) = (k - i) + j from by omega,
            Function.iterate_add_apply]
        have e2 : (pget p)^[k] x = (pget p)^[k - i] ((pget p)^[i] x) := by
          conv_lhs => rw [show k = (k - i) + i from by omega]
          rw [Function.iterate_add_apply]
        rw [e1, e2, hij2]
      have hroot' : isUFRoot (pget p) ((pget p)^[j + (k - i)] x) := by
        rw [this]; exact hkroot
      exact hmin _ (by omega) hroot'
  have hcard : (Finset.range k).card ≤ (Finset.range n).card := by
    apply Finset.card_le_card_of_injOn (fun i => (pget p)^[i] x)
    · intro i hi
      exact Finset.mem_range.mpr (hlt i (Finset.mem_range.mp hi))
    · exact hinj
  simp only [Finset.card_range] at hcard
  omega

theorem pget_compress {n : ℕ} {p : List ℕ} (hwf : UFWF n p) {x : ℕ}
    (hx : pget p x ≠ x) (v : ℕ) :
    ∀ z, pget (p.set x v) z = if z = x then v else pget p z := by
  intro z
  rw [pget_set]
  have hxlt : x < p.length := by
    rw [hwf.1]
    exact pget_lt_of_ne hwf.1 hx
  by_cases hz : z = x
  · rw [if_pos ⟨hz, hxlt⟩, if_pos hz]
  · rw [if_neg (fun hc => hz hc.1), if_neg hz]

theorem compress_g_ne {n : ℕ} {p : List ℕ} (hwf : UFWF n p) {x : ℕ}
    (hx : pget p x ≠ x) : pget p (pget p x) ≠ x := by
  intro hc
  have h2 : (pget p)^[2] x = x := by
    rw [show (2 : ℕ) = 1 + 1 from rfl, Function.iterate_add_apply]
    simpa using hc
  exact no_cycle hx (hwf.2.2 x) 2 (by omega) h2

theorem compress_spec {n : ℕ} {p : List ℕ} (hwf : UFWF n p) {x : ℕ}
    (hx : pget p x ≠ x) :
    (∀ z r, Reaches (pget (p.set x (pget p (pget p x)))) z r
      ↔ Reaches (pget p) z r)
    ∧ UFWF n (p.set x (pget p (pget p x))) := by
  have hq := pget_compress hwf hx (pget p (pget p x))
  have hgne := compress_g_ne hwf hx
  have hxlt : x < n := pget_lt_of_ne hwf.1 hx
  -- q-chains map to p-reachability
  have hmp : ∀ k z r, isUFRoot (pget (p.set x (pget p (pget p x)))) r →
      (pget (p.set x (pget p (pget p x))))^[k] z = r → Reaches (pget p) z r := by
    intro k
    induction k with
    | zero =>
      intro z r hr he
      rw [Function.iterate_zero_apply] at he
      subst he
      have hzx : z ≠ x := by
        intro hzx
        rw [isUFRoot, hq z, if_pos hzx] at hr
        exact hgne (hr.trans hzx)
      rw [isUFRoot, hq z, if_neg hzx] at hr
      exact reaches_self hr
    | succ k ih =>
      intro z r hr he
      rw [Function.iterate_succ_apply] at he
      by_cases hzx : z = x
      · have hg : pget (p.set x (pget p (pget p x))) z = pget p (pget p x) := by
          rw [hq z, if_pos hzx]
        rw [hg] at he
        have := ih _ r hr he
        rw [hzx]
        exact reaches_step (reaches_step this)
      · have hg : pget (p.set x (pget p (pget p x))) z = pget p z := by
          rw [hq z, if_neg hzx]
        rw [hg] at he
        exact reaches_step (ih _ r hr he)
  -- p-chains map to q-reachability (strong induction: the x-case jumps two)
  have hmpr : ∀ k z r, isUFRoot (pget p) r → (pget p)^[k] z = r →
      Reaches (pget (p.set x (pget p (pget p x)))) z r := by
    intro k
    induction k using Nat.strong_induction_on with
    | _ k ih =>
      intro z r hr he
      have hrx : r ≠ x := fun hc => hx (hc ▸ hr)
      have hrootq : isUFRoot (pget (p.set x (pget p (pget p x)))) r := by
        rw [isUFRoot, hq r, if_neg hrx]
        exact hr
      match k, he with
      | 0, he =>
        rw [Function.iterate_zero_apply] at he
        subst he
        exact reaches_self hrootq
      | 1, he =>
        rw [Function.iterate_one] at he
        by_cases hzx : z = x
        · have hpr : pget (p.set x (pget p (pget p x))) z = r := by
            rw [hq z, if_pos hzx]
            rw [hzx] at he
            rw [he]
            exact hr
          exact ⟨hrootq, 1, by rw [Function.iterate_one, hpr]⟩
        · exact ⟨hrootq, 1, by rw [Function.iterate_one, hq z, if_neg hzx, he]⟩
      | (k + 2), he =>
        by_cases hzx : z = x
        · rw [hzx] at he
          have he2 : (pget p)^[k] (pget p (pget p x)) = r := by
            rw [← he, show k + 2 = k + (1 + 1) from rfl,
              Function.iterate_add_apply]
            rfl
          have hrq := ih k (by omega) _ r hr he2
          obtain ⟨hr', k', e'⟩ := hrq
          refine ⟨hr', k' + 1, ?_⟩
          rw [Function.iterate_succ_apply, hq z, if_pos hzx]
          exact e'
        · have he2 : (pget p)^[k + 1] (pget p z) = r := by
            rw [← Function.iterate_succ_apply]
            exact he
          have hrq := ih (k + 1) (by omega) _ r hr he2
          obtain ⟨hr', k', e'⟩ := hrq
          refine ⟨hr', k' + 1, ?_⟩
          rw [Function.iterate_succ_apply, hq z, if_neg hzx]
          exact e'
  constructor
  · intro z r
    constructor
    · rintro ⟨hr, k, e⟩
      exact hmp k z r hr e
    · rintro ⟨hr, k, e⟩
      exact hmpr k z r hr e
  · refine ⟨by rw [List.length_set]; exact hwf.1, ?_, ?_⟩
    · intro z hz
      rw [hq z]
      by_cases hzx : z = x
      · rw [if_pos hzx]
        exact hwf.2.1 _ (hwf.2.1 _ hxlt)
      · rw [if_neg hzx]
        exact hwf.2.1 _ hz
    · intro z
      obtain ⟨r, hr⟩ := hwf.2.2 z
      exact ⟨r, hmpr hr.2.choose z r hr.1 hr.2.choose_spec⟩

theorem ufFind_spec {n : ℕ} :
    ∀ (fuel : ℕ) (p : List ℕ) (x : ℕ), UFWF n p →
    (∃ k ≤ fuel, isUFRoot (pget p) ((pget p)^[k] x)) →
    Reaches (pget p) x (ufFind fuel p x).2 ∧
    (∀ z r, Reaches (pget (ufFind fuel p x).1) z r ↔ Reaches (pget p) z r) ∧
    UFWF n (ufFind fuel p x).1 := by
  intro fuel
  induction fuel with
  | zero =>
    intro p x hwf hk
    obtain ⟨k, hk0, hkr⟩ := hk
    have hk0' : k = 0 := by omega
    subst hk0'
    rw [ufFind]
    exact ⟨reaches_self hkr, fun z r => Iff.rfl, hwf⟩
  | succ fuel ih =>
    intro p x hwf hk
    by_cases hroot : pget p x = x
    · rw [ufFind, if_pos hroot]
      exact ⟨reaches_self hroot, fun z r => Iff.rfl, hwf⟩
    · rw [ufFind, if_neg hroot]
      obtain ⟨hiff, hwfq⟩ := compress_spec hwf hroot
      have hgne := compress_g_ne hwf hroot
      have hq := pget_compress hwf hroot (pget p (pget p x))
      -- fuel adequacy for the recursive call
      obtain ⟨k, hkf, hkr⟩ := hk
      have hknz : k ≠ 0 := by
        intro h0
        subst h0
        exact hroot hkr
      -- chains from g in q coincide with chains in p
      have hchain : ∀ j, (pget (p.set x (pget p (pget p x))))^[j]
          (pget p (pget p x)) = (pget p)^[j] (pget p (pget p x)) := by
        intro j
        induction j with
        | zero => rfl
        | succ m ihm =>
          rw [Function.iterate_succ_apply', Function.iterate_succ_apply', ihm]
          have hne : (pget p)^[m] (pget p (pget p x)) ≠ x := by
            intro hc
            have : (pget p)^[m + 2] x = x := by
              rw [show m + 2 = m + (1 + 1) from rfl, Function.iterate_add_apply]
              simpa using hc
            exact no_cycle hroot (hwf.2.2 x) (m + 2) (by omega) this
          rw [hq _, if_neg hne]
      have hfuel' : ∃ k' ≤ fuel, isUFRoot (pget (p.set x (pget p (pget p x))))
          ((pget (p.set x (pget p (pget p x))))^[k'] (pget p (pget p x))) := by
        rcases Nat.lt_or_ge k 2 with hk2 | hk2
        · -- k = 1 : the parent of x is the root
          have hk1 : k = 1 := by omega
          subst hk1
          rw [Function.iterate_one] at hkr
          have hg : pget p (pget p x) = pget p x := hkr
          refine ⟨0, by omega, ?_⟩
          rw [Function.iterate_zero_apply, isUFRoot, hq _, if_neg hgne, hg]
          exact hkr
        · -- k ≥ 2 : shorten the chain by two
          have hroot2 : isUFRoot (pget p) ((pget p)^[k - 2] (pget p (pget p x))) := by
            have : (pget p)^[k - 2] ((pget p)^[2] x) = (pget p)^[k] x := by
              rw [← Function.iterate_add_apply]
              congr 1
              omega
            have h2 : (pget p)^[2] x = pget p (pget p x) := by
              rw [show (2 : ℕ) = 1 + 1 from rfl, Function.iterate_add_apply]
              rfl
            rw [← h2, this]
            exact hkr
          have hrne : (pget p)^[k - 2] (pget p (pget p x)) ≠ x :=
            fun hc => hroot (hc ▸ hroot2)
          refine ⟨k - 2, by omega, ?_⟩
          rw [hchain, isUFRoot, hq _, if_neg hrne]
          exact hroot2
      obtain ⟨hre, hiff2, hwf2⟩ := ih _ _ hwfq hfuel'
      refine ⟨?_, ?_, hwf2⟩
      · have := (hiff _ _).mp hre
        exact reaches_step (reaches_step this)
      · intro z r
        rw [hiff2 z r, hiff z r]

theorem pget_set_lt {n : ℕ} {p : List ℕ} (hlen : p.length = n) {a : ℕ}
    (ha : a < n) (v : ℕ) :
    ∀ z, pget (p.set a v) z = if z = a then v else pget p z := by
  intro z
  rw [pget_set]
  by_cases hz : z = a
  · rw [if_pos ⟨hz, by omega⟩, if_pos hz]
  · rw [if_neg (fun hc => hz hc.1), if_neg hz]

theorem rootEq_symm {f : ℕ → ℕ} {x y : ℕ} (h : rootEq f x y) : rootEq f y x := by
  obtain ⟨r, h1, h2⟩ := h
  exact ⟨r, h2, h1⟩

theorem rootEq_trans {f : ℕ → ℕ} {x y z : ℕ} (h1 : rootEq f x y)
    (h2 : rootEq f y z) : rootEq f x z := by
  obtain ⟨r, ha, hb⟩ := h1
  obtain ⟨s, hc, hd⟩ := h2
  rw [reaches_unique hb hc] at ha
  exact ⟨s, ha, hd⟩

theorem rootEq_congr {f g : ℕ → ℕ}
    (h : ∀ z r, Reaches f z r ↔ Reaches g z r) (x y : ℕ) :
    rootEq f x y ↔ rootEq g x y := by
  constructor
  · rintro ⟨r, h1, h2⟩
    exact ⟨r, (h x r).mp h1, (h y r).mp h2⟩
  · rintro ⟨r, h1, h2⟩
    exact ⟨r, (h x r).mpr h1, (h y r).mpr h2⟩

theorem link_spec {n : ℕ} {p : List ℕ} (hwf : UFWF n p) {ra rb : ℕ}
    (hra : isUFRoot (pget p) ra) (hrb : isUFRoot (pget p) rb)
    (hne : ra ≠ rb) (hralt : ra < n) (hrblt : rb < n) :
    (∀ z r, Reaches (pget (p.set ra rb)) z r ↔
      ((Reaches (pget p) z ra ∧ r = rb) ∨ (Reaches (pget p) z r ∧ r ≠ ra)))
    ∧ UFWF n (p.set ra rb) := by
  have hq := pget_set_lt hwf.1 hralt rb
  have hrbq : isUFRoot (pget (p.set ra rb)) rb := by
    rw [isUFRoot, hq rb, if_neg (fun hc => hne hc.symm)]
    exact hrb
  have hmp : ∀ k z r, isUFRoot (pget (p.set ra rb)) r →
      (pget (p.set ra rb))^[k] z = r →
      ((Reaches (pget p) z ra ∧ r = rb) ∨ (Reaches (pget p) z r ∧ r ≠ ra)) := by
    intro k
    induction k with
    | zero =>
      intro z r hr he
      rw [Function.iterate_zero_apply] at he
      subst he
      have hzra : z ≠ ra := by
        intro hc
        rw [isUFRoot, hq z, if_pos hc] at hr
        exact hne (hc ▸ hr.symm)
      rw [isUFRoot, hq z, if_neg hzra] at hr
      exact Or.inr ⟨reaches_self hr, hzra⟩
    | succ k ih =>
      intro z r hr he
      rw [Function.iterate_succ_apply] at he
      by_cases hzra : z = ra
      · have hstep : pget (p.set ra rb) z = rb := by
          rw [hq z, if_pos hzra]
        rw [hstep] at he
        have hrb' : (pget (p.set ra rb))^[k] rb = rb :=
          iterate_isUFRoot _ _ hrbq k
        rw [hrb'] at he
        subst he
        exact Or.inl ⟨by rw [hzra]; exact reaches_self hra, rfl⟩
      · have hstep : pget (p.set ra rb) z = pget p z := by
          rw [hq z, if_neg hzra]
        rw [hstep] at he
        rcases ih _ r hr he with ⟨h1, h2⟩ | ⟨h1, h2⟩
        · exact Or.inl ⟨reaches_step h1, h2⟩
        · exact Or.inr ⟨reaches_step h1, h2⟩
  have hmpr_left : ∀ k z, (pget p)^[k] z = ra →
      Reaches (pget (p.set ra rb)) z rb := by
    intro k
    induction k with
    | zero =>
      intro z he
      rw [Function.iterate_zero_apply] at he
      subst he
      exact ⟨hrbq, 1, by rw [Function.iterate_one, hq z, if_pos rfl]⟩
    | succ k ih =>
      intro z he
      rw [Function.iterate_succ_apply] at he
      by_cases hzra : z = ra
      · exact ⟨hrbq, 1, by rw [Function.iterate_one, hq z, if_pos hzra]⟩
      · obtain ⟨hr', k', e'⟩ := ih _ he
        exact ⟨hr', k' + 1, by
          rw [Function.iterate_succ_apply, hq z, if_neg hzra]
          exact e'⟩
  have hmpr_right : ∀ k z r, isUFRoot (pget p) r → r ≠ ra → (pget p)^[k] z = r →
      Reaches (pget (p.set ra rb)) z r := by
    intro k
    induction k with
    | zero =>
      intro z r hr hrra he
      rw [Function.iterate_zero_apply] at he
      subst he
      refine reaches_self ?_
      rw [isUFRoot, hq z, if_neg hrra]
      exact hr
    | succ k ih =>
      intro z r hr hrra he
      rw [Function.iterate_succ_apply] at he
      by_cases hzra : z = ra
      · exfalso
        rw [hzra, show pget p ra = ra from hra, iterate_isUFRoot _ _ hra k] at he
        exact hrra he.symm
      · obtain ⟨hr', k', e'⟩ := ih _ r hr hrra he
        exact ⟨hr', k' + 1, by
          rw [Function.iterate_succ_apply, hq z, if_neg hzra]
          exact e'⟩
  constructor
  · intro z r
    constructor
    · rintro ⟨hr, k, e⟩
      exact hmp k z r hr e
    · rintro (⟨⟨hra', k, e⟩, rfl⟩ | ⟨⟨hr', k, e⟩, hrra⟩)
      · exact hmpr_left k z e
      · exact hmpr_right k z r hr' hrra e
  · refine ⟨by rw [List.length_set]; exact hwf.1, ?_, ?_⟩
    · intro z hz
      rw [hq z]
      by_cases hzra : z = ra
      · rw [if_pos hzra]
        exact hrblt
      · rw [if_neg hzra]
        exact hwf.2.1 _ hz
    · intro z
      obtain ⟨r, hr, k, e⟩ := hwf.2.2 z
      by_cases hrra : r = ra
      · exact ⟨rb, hmpr_left k z (hrra ▸ e)⟩
      · exact ⟨r, hmpr_right k z r hr hrra e⟩

theorem ufUnion_spec {n : ℕ} {p : List ℕ} (hwf : UFWF n p) {a b : ℕ}
    (ha : a < n) (hb : b < n) :
    UFWF n (ufUnion n p a b) ∧
    ∀ x y, rootEq (pget (ufUnion n p a b)) x y ↔
      (rootEq (pget p) x y ∨ (rootEq (pget p) x a ∧ rootEq (pget p) y b) ∨
        (rootEq (pget p) x b ∧ rootEq (pget p) y a)) := by
  obtain ⟨hrea, hiff1, hwf1⟩ := ufFind_spec n p a hwf (root_within hwf a)
  obtain ⟨hreb, hiff2, hwf2⟩ :=
    ufFind_spec n (ufFind n p a).1 b hwf1 (root_within hwf1 b)
  have hreb' : Reaches (pget p) b (ufFind n (ufFind n p a).1 b).2 :=
    (hiff1 _ _).mp hreb
  have hiff12 : ∀ z r, Reaches (pget (ufFind n (ufFind n p a).1 b).1) z r ↔
      Reaches (pget p) z r := fun z r => (hiff2 z r).trans (hiff1 z r)
  have hdef : ufUnion n p a b =
      if (ufFind n p a).2 ≠ (ufFind n (ufFind n p a).1 b).2
      then (ufFind n (ufFind n p a).1 b).1.set (ufFind n p a).2
        (ufFind n (ufFind n p a).1 b).2
      else (ufFind n (ufFind n p a).1 b).1 := rfl
  rw [hdef]
  by_cases hne : (ufFind n p a).2 ≠ (ufFind n (ufFind n p a).1 b).2
  · rw [if_pos hne]
    have hraq : isUFRoot (pget (ufFind n (ufFind n p a).1 b).1) (ufFind n p a).2 :=
      ((hiff12 _ _).mpr hrea).1
    have hrbq : isUFRoot (pget (ufFind n (ufFind n p a).1 b).1)
        (ufFind n (ufFind n p a).1 b).2 := ((hiff2 _ _).mpr hreb).1
    have halt : (ufFind n p a).2 < n := reaches_lt hwf ha hrea
    have hblt : (ufFind n (ufFind n p a).1 b).2 < n := reaches_lt hwf hb hreb'
    obtain ⟨hchar, hwfq⟩ := link_spec hwf2 hraq hrbq hne halt hblt
    have hchar' : ∀ z r,
        Reaches (pget ((ufFind n (ufFind n p a).1 b).1.set (ufFind n p a).2
          (ufFind n (ufFind n p a).1 b).2)) z r ↔
        ((Reaches (pget p) z (ufFind n p a).2 ∧ r = (ufFind n (ufFind n p a).1 b).2)
          ∨ (Reaches (pget p) z r ∧ r ≠ (ufFind n p a).2)) := by
      intro z r
      rw [hchar z r]
      simp only [hiff12]
    refine ⟨hwfq, ?_⟩
    intro x y
    constructor
    · rintro ⟨r, hx, hy⟩
      rw [hchar' x r] at hx
      rw [hchar' y r] at hy
      rcases hx with ⟨hxa, rfl⟩ | ⟨hxr, hxne⟩
      · rcases hy with ⟨hya, -⟩ | ⟨hyr, hyne⟩
        · exact Or.inl ⟨_, hxa, hya⟩
        · exact Or.inr (Or.inl ⟨⟨_, hxa, hrea⟩, ⟨_, hyr, hreb'⟩⟩)
      · rcases hy with ⟨hya, rfl⟩ | ⟨hyr, hyne⟩
        · exact Or.inr (Or.inr ⟨⟨_, hxr, hreb'⟩, ⟨_, hya, hrea⟩⟩)
        · exact Or.inl ⟨r, hxr, hyr⟩
    · rintro (⟨r, hx, hy⟩ | ⟨⟨s, hxs, has⟩, ⟨t, hyt, hbt⟩⟩ |
        ⟨⟨s, hxs, hbs⟩, ⟨t, hyt, hat⟩⟩)
      · by_cases hr : r = (ufFind n p a).2
        · refine ⟨(ufFind n (ufFind n p a).1 b).2,
            (hchar' _ _).mpr (Or.inl ⟨hr ▸ hx, rfl⟩),
            (hchar' _ _).mpr (Or.inl ⟨hr ▸ hy, rfl⟩)⟩
        · exact ⟨r, (hchar' _ _).mpr (Or.inr ⟨hx, hr⟩),
            (hchar' _ _).mpr (Or.inr ⟨hy, hr⟩)⟩
      · have hs : s = (ufFind n p a).2 := reaches_unique has hrea
        have ht : t = (ufFind n (ufFind n p a).1 b).2 := reaches_unique hbt hreb'
        refine ⟨(ufFind n (ufFind n p a).1 b).2,
          (hchar' _ _).mpr (Or.inl ⟨hs ▸ hxs, rfl⟩),
          (hchar' _ _).mpr (Or.inr ⟨ht ▸ hyt, fun hc => hne hc.symm⟩)⟩
      · have hs : s = (ufFind n (ufFind n p a).1 b).2 := reaches_unique hbs hreb'
        have ht : t = (ufFind n p a).2 := reaches_unique hat hrea
        refine ⟨(ufFind n (ufFind n p a).1 b).2,
          (hchar' _ _).mpr (Or.inr ⟨hs ▸ hxs, fun hc => hne hc.symm⟩),
          (hchar' _ _).mpr (Or.inl ⟨ht ▸ hyt, rfl⟩)⟩
  · rw [if_neg hne]
    push_neg at hne
    have hab : rootEq (pget p) a b := ⟨_, hrea, hne ▸ hreb'⟩
    refine ⟨hwf2, ?_⟩
    intro x y
    rw [rootEq_congr hiff12 x y]
    constructor
    · exact Or.inl
    · rintro (h | ⟨hxa, hyb⟩ | ⟨hxb, hya⟩)
      · exact h
      · exact rootEq_trans (rootEq_trans hxa hab) (rootEq_symm hyb)
      · exact rootEq_trans (rootEq_trans hxb (rootEq_symm hab)) (rootEq_symm hya)

theorem eqvGen_empty {x y : ℕ} :
    Relation.EqvGen (fun _ _ => False) x y ↔ x = y := by
  constructor
  · intro h
    induction h with
    | rel a b h => exact h.elim
    | refl a => rfl
    | symm a b _ ih => exact ih.symm
    | trans a b c _ _ ih1 ih2 => exact ih1.trans ih2
  · rintro rfl
    exact Relation.EqvGen.refl x

theorem eqvGen_congr_rel {r s : ℕ → ℕ → Prop} (h : ∀ x y, r x y ↔ s x y)
    {x y : ℕ} : Relation.EqvGen r x y ↔ Relation.EqvGen s x y :=
  ⟨Relation.EqvGen.mono (fun a b => (h a b).mp),
    Relation.EqvGen.mono (fun a b => (h a b).mpr)⟩

theorem eqvGen_add_pair (R : ℕ → ℕ → Prop) (a b : ℕ) (x y : ℕ) :
    Relation.EqvGen (fun u v => R u v ∨ (u = a ∧ v = b)) x y ↔
      (Relation.EqvGen R x y ∨
        (Relation.EqvGen R x a ∧ Relation.EqvGen R b y) ∨
        (Relation.EqvGen R x b ∧ Relation.EqvGen R a y)) := by
  constructor
  · intro h
    induction h with
    | rel u v huv =>
      rcases huv with h | ⟨rfl, rfl⟩
      · exact Or.inl (Relation.EqvGen.rel _ _ h)
      · exact Or.inr (Or.inl ⟨Relation.EqvGen.refl _, Relation.EqvGen.refl _⟩)
    | refl u => exact Or.inl (Relation.EqvGen.refl _)
    | symm u v _ ih =>
      rcases ih with h | ⟨h1, h2⟩ | ⟨h1, h2⟩
      · exact Or.inl (Relation.EqvGen.symm _ _ h)
      · exact Or.inr (Or.inr ⟨Relation.EqvGen.symm _ _ h2, Relation.EqvGen.symm _ _ h1⟩)
      · exact Or.inr (Or.inl ⟨Relation.EqvGen.symm _ _ h2, Relation.EqvGen.symm _ _ h1⟩)
    | trans u v w _ _ ih1 ih2 =>
      rcases ih1 with h1 | ⟨h1, h2⟩ | ⟨h1, h2⟩ <;>
        rcases ih2 with h3 | ⟨h3, h4⟩ | ⟨h3, h4⟩
      · exact Or.inl (Relation.EqvGen.trans _ _ _ h1 h3)
      · exact Or.inr (Or.inl ⟨Relation.EqvGen.trans _ _ _ h1 h3, h4⟩)
      · exact Or.inr (Or.inr ⟨Relation.EqvGen.trans _ _ _ h1 h3, h4⟩)
      · exact Or.inr (Or.inl ⟨h1, Relation.EqvGen.trans _ _ _ h2 h3⟩)
      · exact Or.inr (Or.inl ⟨h1, h4⟩)
      · exact Or.inl (Relation.EqvGen.trans _ _ _ h1 h4)
      · exact Or.inr (Or.inr ⟨h1, Relation.EqvGen.trans _ _ _ h2 h3⟩)
      · exact Or.inl (Relation.EqvGen.trans _ _ _ h1 h4)
      · exact Or.inr (Or.inr ⟨h1, h4⟩)
  · have hpair : Relation.EqvGen (fun u v => R u v ∨ (u = a ∧ v = b)) a b :=
      Relation.EqvGen.rel _ _ (Or.inr ⟨rfl, rfl⟩)
    rintro (h | ⟨h1, h2⟩ | ⟨h1, h2⟩)
    · exact h.mono (fun u v huv => Or.inl huv)
    · exact Relation.EqvGen.trans _ _ _
        (Relation.EqvGen.trans _ _ _ (h1.mono (fun u v huv => Or.inl huv)) hpair)
        (h2.mono (fun u v huv => Or.inl huv))
    · exact Relation.EqvGen.trans _ _ _
        (Relation.EqvGen.trans _ _ _ (h1.mono (fun u v huv => Or.inl huv))
          (Relation.EqvGen.symm _ _ hpair))
        (h2.mono (fun u v huv => Or.inl huv))

theorem rootEq_range (n : ℕ) (x y : ℕ) :
    rootEq (pget (List.range n)) x y ↔ x = y := by
  have hp : ∀ z, pget (List.range n) z = z := by
    intro z
    by_cases hz : z < n
    · unfold pget
      rw [List.getD_eq_getElem?_getD, List.getElem?_range hz]
      rfl
    · exact pget_out (by simpa using hz)
  have hiter : ∀ k z, (pget (List.range n))^[k] z = z := by
    intro k
    induction k with
    | zero => intro z; rfl
    | succ m ih =>
      intro z
      rw [Function.iterate_succ_apply, hp z, ih z]
  constructor
  · rintro ⟨r, ⟨-, k1, e1⟩, ⟨-, k2, e2⟩⟩
    rw [hiter k1 x] at e1
    rw [hiter k2 y] at e2
    rw [e1, e2]
  · rintro rfl
    exact ⟨x, ⟨hp x, 0, rfl⟩, ⟨hp x, 0, rfl⟩⟩

theorem to_index_lt (o : Object) {c : ℕ × ℕ} (h1 : c.1 < o.object_h)
    (h2 : c.2 < o.object_w) : o.to_index c < o.object_h * o.object_w := by
  unfold Object.to_index
  calc c.1 * o.object_w + c.2 < c.1 * o.object_w + o.object_w := by omega
  _ = (c.1 + 1) * o.object_w := by ring
  _ ≤ o.object_h * o.object_w := Nat.mul_le_mul_right _ (by omega)

theorem mem_all_bonds (o : Object) (bond : Bond) :
    bond ∈ o.all_bonds ↔
      ((∃ i j, i < o.object_h ∧ j + 1 < o.object_w ∧
        o.matAt i j ≠ MaterialTyp.Luft ∧ o.matAt i (j + 1) ≠ MaterialTyp.Luft ∧
        bond = ((i, j), (i, j + 1))) ∨
      (∃ i j, i + 1 < o.object_h ∧ j < o.object_w ∧
        o.matAt i j ≠ MaterialTyp.Luft ∧ o.matAt (i + 1) j ≠ MaterialTyp.Luft ∧
        bond = ((i, j), (i + 1, j)))) := by
  unfold Object.all_bonds
  rw [List.mem_flatMap]
  constructor
  · rintro ⟨i, hi, hmem⟩
    rw [List.mem_flatMap] at hmem
    obtain ⟨j, hj, hmem⟩ := hmem
    rw [List.mem_range] at hi hj
    by_cases hair : o.matAt i j = MaterialTyp.Luft
    · rw [if_pos hair] at hmem
      exact absurd hmem (List.not_mem_nil bond)
    · rw [if_neg hair, List.mem_append] at hmem
      rcases hmem with hmem | hmem
      · by_cases hc : j + 1 < o.object_w ∧ o.matAt i (j + 1) ≠ MaterialTyp.Luft
        · rw [if_pos hc, List.mem_singleton] at hmem
          exact Or.inl ⟨i, j, hi, hc.1, hair, hc.2, hmem⟩
        · rw [if_neg hc] at hmem
          exact absurd hmem (List.not_mem_nil bond)
      · by_cases hc : i + 1 < o.object_h ∧ o.matAt (i + 1) j ≠ MaterialTyp.Luft
        · rw [if_pos hc, List.mem_singleton] at hmem
          exact Or.inr ⟨i, j, hc.1, hj, hair, hc.2, hmem⟩
        · rw [if_neg hc] at hmem
          exact absurd hmem (List.not_mem_nil bond)
  · rintro (⟨i, j, hi, hj, hm1, hm2, rfl⟩ | ⟨i, j, hi, hj, hm1, hm2, rfl⟩)
    · refine ⟨i, List.mem_range.mpr hi, ?_⟩
      rw [List.mem_flatMap]
      refine ⟨j, List.mem_range.mpr (by omega), ?_⟩
      rw [if_neg hm1, List.mem_append]
      exact Or.inl (by rw [if_pos ⟨hj, hm2⟩]; exact List.mem_singleton.mpr rfl)
    · refine ⟨i, List.mem_range.mpr (by omega), ?_⟩
      rw [List.mem_flatMap]
      refine ⟨j, List.mem_range.mpr hj, ?_⟩
      rw [if_neg hm1, List.mem_append]
      exact Or.inr (by rw [if_pos ⟨hi, hm2⟩]; exact List.mem_singleton.mpr rfl)

theorem all_bonds_endpoints (o : Object) {bond : Bond} (h : bond ∈ o.all_bonds) :
    bond.1.1 < o.object_h ∧ bond.1.2 < o.object_w ∧
    bond.2.1 < o.object_h ∧ bond.2.2 < o.object_w ∧
    o.matAt bond.1.1 bond.1.2 ≠ MaterialTyp.Luft ∧
    o.matAt bond.2.1 bond.2.2 ≠ MaterialTyp.Luft := by
  rcases (mem_all_bonds o bond).mp h with ⟨i, j, hi, hj, hm1, hm2, rfl⟩ |
    ⟨i, j, hi, hj, hm1, hm2, rfl⟩
  · exact ⟨hi, show j < o.object_w by omega, hi, hj, hm1, hm2⟩
  · exact ⟨show i < o.object_h by omega, hj, hi, hj, hm1, hm2⟩

theorem contains_eq_false_iff (l : List Bond) (b : Bond) :
    l.contains b = false ↔ b ∉ l := by simp

theorem to_index_inj (o : Object) {c d : ℕ × ℕ} (hc : c.2 < o.object_w)
    (hd : d.2 < o.object_w) (h : o.to_index c = o.to_index d) : c = d := by
  obtain ⟨c1, c2⟩ := c
  obtain ⟨d1, d2⟩ := d
  simp only [Object.to_index] at h hc hd
  rcases Nat.lt_trichotomy c1 d1 with hlt | heq | hlt
  · have hmul : (c1 + 1) * o.object_w ≤ d1 * o.object_w :=
      Nat.mul_le_mul_right _ hlt
    rw [Nat.add_mul, one_mul] at hmul
    omega
  · subst heq
    have h2 : c2 = d2 := by omega
    rw [h2]
  · have hmul : (d1 + 1) * o.object_w ≤ c1 * o.object_w :=
      Nat.mul_le_mul_right _ hlt
    rw [Nat.add_mul, one_mul] at hmul
    omega

theorem foldBonds_spec (o : Object) (broken : List Bond) :
    ∀ (B : List Bond) (p : List ℕ) (E : ℕ → ℕ → Prop),
      (∀ bond ∈ B, o.to_index bond.1 < o.object_h * o.object_w ∧
        o.to_index bond.2 < o.object_h * o.object_w) →
      UFWF (o.object_h * o.object_w) p →
      (∀ x y, rootEq (pget p) x y ↔ Relation.EqvGen E x y) →
      UFWF (o.object_h * o.object_w)
        (B.foldl (fun q bond =>
          if broken.contains bond then q
          else ufUnion (o.object_h * o.object_w) q (o.to_index bond.1)
            (o.to_index bond.2)) p) ∧
      ∀ x y, rootEq (pget (B.foldl (fun q bond =>
          if broken.contains bond then q
          else ufUnion (o.object_h * o.object_w) q (o.to_index bond.1)
            (o.to_index bond.2)) p)) x y ↔
        Relation.EqvGen (fun m1 m2 => E m1 m2 ∨
          ∃ bond ∈ B, broken.contains bond = false ∧
            m1 = o.to_index bond.1 ∧ m2 = o.to_index bond.2) x y := by
  intro B
  induction B with
  | nil =>
    intro p E hB hwf hE
    simp only [List.foldl_nil]
    refine ⟨hwf, fun x y => (hE x y).trans (eqvGen_congr_rel ?_)⟩
    intro u v
    simp
  | cons bond rest ih =>
    intro p E hB hwf hE
    simp only [List.foldl_cons]
    by_cases hbr : broken.contains bond = true
    · rw [if_pos hbr]
      obtain ⟨hw, hr⟩ := ih p E (fun b hb => hB b (List.mem_cons_of_mem _ hb)) hwf hE
      refine ⟨hw, fun x y => (hr x y).trans (eqvGen_congr_rel ?_)⟩
      intro u v
      constructor
      · rintro (h | ⟨b, hb, hnb, h1, h2⟩)
        · exact Or.inl h
        · exact Or.inr ⟨b, List.mem_cons_of_mem _ hb, hnb, h1, h2⟩
      · rintro (h | ⟨b, hb, hnb, h1, h2⟩)
        · exact Or.inl h
        · rcases List.mem_cons.mp hb with rfl | hb
          · rw [hbr] at hnb
            exact absurd hnb (by decide)
          · exact Or.inr ⟨b, hb, hnb, h1, h2⟩
    · rw [if_neg hbr]
      obtain ⟨ha1, ha2⟩ := hB bond (List.mem_cons_self _ _)
      obtain ⟨hwfu, hru⟩ := ufUnion_spec hwf ha1 ha2
      have hE' : ∀ x y,
          rootEq (pget (ufUnion (o.object_h * o.object_w) p (o.to_index bond.1)
            (o.to_index bond.2))) x y ↔
          Relation.EqvGen (fun u v => E u v ∨
            (u = o.to_index bond.1 ∧ v = o.to_index bond.2)) x y := by
        intro x y
        rw [hru x y, eqvGen_add_pair]
        constructor
        · rintro (h | ⟨h1, h2⟩ | ⟨h1, h2⟩)
          · exact Or.inl ((hE x y).mp h)
          · exact Or.inr (Or.inl ⟨(hE _ _).mp h1,
              Relation.EqvGen.symm _ _ ((hE _ _).mp h2)⟩)
          · exact Or.inr (Or.inr ⟨(hE _ _).mp h1,
              Relation.EqvGen.symm _ _ ((hE _ _).mp h2)⟩)
        · rintro (h | ⟨h1, h2⟩ | ⟨h1, h2⟩)
          · exact Or.inl ((hE x y).mpr h)
          · exact Or.inr (Or.inl ⟨(hE _ _).mpr h1,
              (hE _ _).mpr (Relation.EqvGen.symm _ _ h2)⟩)
          · exact Or.inr (Or.inr ⟨(hE _ _).mpr h1,
              (hE _ _).mpr (Relation.EqvGen.symm _ _ h2)⟩)
      obtain ⟨hw, hr⟩ := ih _ _ (fun b hb => hB b (List.mem_cons_of_mem _ hb)) hwfu hE'
      refine ⟨hw, fun x y => (hr x y).trans (eqvGen_congr_rel ?_)⟩
      intro u v
      constructor
      · rintro ((h | ⟨h1, h2⟩) | ⟨b, hb, hnb, h1, h2⟩)
        · exact Or.inl h
        · exact Or.inr ⟨bond, List.mem_cons_self _ _, by simpa using hbr, h1, h2⟩
        · exact Or.inr ⟨b, List.mem_cons_of_mem _ hb, hnb, h1, h2⟩
      · rintro (h | ⟨b, hb, hnb, h1, h2⟩)
        · exact Or.inl (Or.inl h)
        · rcases List.mem_cons.mp hb with rfl | hb
          · exact Or.inl (Or.inr ⟨h1, h2⟩)
          · exact Or.inr ⟨b, hb, hnb, h1, h2⟩

theorem fracture_parent_spec (o : Object) (broken : List Bond) :
    UFWF (o.object_h * o.object_w) (o.fracture_parent broken) ∧
    ∀ x y, rootEq (pget (o.fracture_parent broken)) x y ↔
      Relation.EqvGen (o.keptIdxRel broken) x y := by
  have hB : ∀ bond ∈ o.all_bonds,
      o.to_index bond.1 < o.object_h * o.object_w ∧
      o.to_index bond.2 < o.object_h * o.object_w := by
    intro bond hb
    obtain ⟨h1, h2, h3, h4, -, -⟩ := all_bonds_endpoints o hb
    exact ⟨to_index_lt o h1 h2, to_index_lt o h3 h4⟩
  have hE : ∀ x y, rootEq (pget (List.range (o.object_h * o.object_w))) x y ↔
      Relation.EqvGen (fun _ _ => False) x y := by
    intro x y
    rw [rootEq_range, eqvGen_empty]
  obtain ⟨hw, hr⟩ :=
    foldBonds_spec o broken o.all_bonds _ _ hB (UFWF_range _) hE
  refine ⟨hw, fun x y => (hr x y).trans (eqvGen_congr_rel ?_)⟩
  intro u v
  unfold Object.keptIdxRel Object.keptBonds
  constructor
  · rintro (h | ⟨b, hb, hnb, h1, h2⟩)
    · exact h.elim
    · exact ⟨b, List.mem_filter.mpr ⟨hb, by simpa using hnb⟩, h1, h2⟩
  · rintro ⟨b, hb, h1, h2⟩
    obtain ⟨hb1, hb2⟩ := List.mem_filter.mp hb
    refine Or.inr ⟨b, hb1, ?_, h1, h2⟩
    rw [contains_eq_false_iff]
    simpa using hb2

theorem collect_fold (o : Object) (broken : List Bond) :
    ∀ (L : List (ℕ × ℕ)) (p : List ℕ) (g : List (ℕ × List (ℕ × ℕ))),
      UFWF (o.object_h * o.object_w) p →
      (∀ z r, Reaches (pget p) z r ↔
        Reaches (pget (o.fracture_parent broken)) z r) →
      (L.foldl (fun st c =>
        let fr := ufFind (o.object_h * o.object_w) st.1 (o.to_index c)
        (fr.1, insertGroup st.2 fr.2 c)) (p, g)).2 =
      L.foldl (fun g2 c => insertGroup g2 (o.rootFn broken c) c) g := by
  intro L
  induction L with
  | nil => intro p g hwf hre; rfl
  | cons c rest ih =>
    intro p g hwf hre
    simp only [List.foldl_cons]
    obtain ⟨hrec, hiff, hwf'⟩ :=
      ufFind_spec (o.object_h * o.object_w) p (o.to_index c) hwf (root_within hwf _)
    have h0wf : UFWF (o.object_h * o.object_w) (o.fracture_parent broken) :=
      (fracture_parent_spec o broken).1
    obtain ⟨hrec0, hiff0, hwf0'⟩ :=
      ufFind_spec (o.object_h * o.object_w) (o.fracture_parent broken)
        (o.to_index c) h0wf (root_within h0wf _)
    have hkey : (ufFind (o.object_h * o.object_w) p (o.to_index c)).2 =
        o.rootFn broken c :=
      reaches_unique ((hre _ _).mp hrec) hrec0
    rw [hkey]
    exact ih _ _ hwf' (fun z r => (hiff z r).trans (hre z r))

theorem find_fragments_eq (o : Object) (broken : List Bond) :
    o.find_fragments broken =
      (groupFold (o.rootFn broken) o.cellList).map Prod.snd := by
  unfold Object.find_fragments groupFold
  congr 1
  exact collect_fold o broken o.cellList _ []
    (fracture_parent_spec o broken).1 (fun z r => Iff.rfl)

theorem insertGroup_keys (r : ℕ) (c : ℕ × ℕ) :
    ∀ g : List (ℕ × List (ℕ × ℕ)),
      (insertGroup g r c).map Prod.fst =
        if r ∈ g.map Prod.fst then g.map Prod.fst else g.map Prod.fst ++ [r] := by
  intro g
  induction g with
  | nil => simp [insertGroup]
  | cons e rest ih =>
    by_cases hk : e.1 = r
    · obtain ⟨k, l⟩ := e
      simp only at hk
      subst hk
      rw [insertGroup, if_pos rfl]
      simp
    · obtain ⟨k, l⟩ := e
      simp only at hk
      rw [insertGroup, if_neg hk]
      simp only [List.map_cons, List.mem_cons]
      rw [ih]
      by_cases hmem : r ∈ rest.map Prod.fst
      · rw [if_pos hmem, if_pos (Or.inr hmem)]
      · rw [if_neg hmem, if_neg (by rintro (h | h); exact hk h.symm; exact hmem h)]
        simp

theorem insertGroup_keys_nodup {g : List (ℕ × List (ℕ × ℕ))} (r : ℕ) (c : ℕ × ℕ)
    (h : (g.map Prod.fst).Nodup) : ((insertGroup g r c).map Prod.fst).Nodup := by
  rw [insertGroup_keys]
  by_cases hmem : r ∈ g.map Prod.fst
  · rwa [if_pos hmem]
  · rw [if_neg hmem]
    refine List.nodup_append.mpr ⟨h, List.nodup_singleton r, fun a ha har => ?_⟩
    rw [List.mem_singleton] at har
    exact hmem (har ▸ ha)

theorem insertGroup_sound (r : ℕ) (c : ℕ × ℕ) :
    ∀ g : List (ℕ × List (ℕ × ℕ)), ∀ kl ∈ insertGroup g r c, ∀ x ∈ kl.2,
      (∃ kl' ∈ g, x ∈ kl'.2 ∧ kl'.1 = kl.1) ∨ (x = c ∧ kl.1 = r) := by
  intro g
  induction g with
  | nil =>
    intro kl hkl x hx
    rw [insertGroup, List.mem_singleton] at hkl
    subst hkl
    rw [List.mem_singleton] at hx
    exact Or.inr ⟨hx, rfl⟩
  | cons e rest ih =>
    obtain ⟨k, l⟩ := e
    intro kl hkl x hx
    by_cases hk : k = r
    · subst hk
      rw [insertGroup, if_pos rfl, List.mem_cons] at hkl
      rcases hkl with rfl | hkl
      · rcases List.mem_append.mp hx with hx | hx
        · exact Or.inl ⟨(k, l), List.mem_cons_self _ _, hx, rfl⟩
        · exact Or.inr ⟨List.mem_singleton.mp hx, rfl⟩
      · exact Or.inl ⟨kl, List.mem_cons_of_mem _ hkl, hx, rfl⟩
    · rw [insertGroup, if_neg hk, List.mem_cons] at hkl
      rcases hkl with rfl | hkl
      · exact Or.inl ⟨(k, l), List.mem_cons_self _ _, hx, rfl⟩
      · rcases ih kl hkl x hx with ⟨kl', hkl', hx', he⟩ | h
        · exact Or.inl ⟨kl', List.mem_cons_of_mem _ hkl', hx', he⟩
        · exact Or.inr h

theorem insertGroup_mono (r : ℕ) (c : ℕ × ℕ) :
    ∀ g : List (ℕ × List (ℕ × ℕ)), ∀ kl ∈ g,
      ∃ kl2 ∈ insertGroup g r c, kl.1 = kl2.1 ∧ ∀ x ∈ kl.2, x ∈ kl2.2 := by
  intro g
  induction g with
  | nil => intro kl hkl; exact absurd hkl (List.not_mem_nil kl)
  | cons e rest ih =>
    obtain ⟨k, l⟩ := e
    intro kl hkl
    by_cases hk : k = r
    · subst hk
      rw [List.mem_cons] at hkl
      rcases hkl with rfl | hkl
      · refine ⟨(k, l ++ [c]), ?_, rfl, fun x hx => List.mem_append.mpr (Or.inl hx)⟩
        rw [insertGroup, if_pos rfl]
        exact List.mem_cons_self _ _
      · refine ⟨kl, ?_, rfl, fun x hx => hx⟩
        rw [insertGroup, if_pos rfl]
        exact List.mem_cons_of_mem _ hkl
    · rw [List.mem_cons] at hkl
      rcases hkl with rfl | hkl
      · refine ⟨(k, l), ?_, rfl, fun x hx => hx⟩
        rw [insertGroup, if_neg hk]
        exact List.mem_cons_self _ _
      · obtain ⟨kl2, hkl2, he, hsub⟩ := ih kl hkl
        refine ⟨kl2, ?_, he, hsub⟩
        rw [insertGroup, if_neg hk]
        exact List.mem_cons_of_mem _ hkl2

theorem insertGroup_self (r : ℕ) (c : ℕ × ℕ) :
    ∀ g : List (ℕ × List (ℕ × ℕ)),
      ∃ kl ∈ insertGroup g r c, kl.1 = r ∧ c ∈ kl.2 := by
  intro g
  induction g with
  | nil =>
    exact ⟨(r, [c]), List.mem_singleton.mpr rfl, rfl, List.mem_singleton.mpr rfl⟩
  | cons e rest ih =>
    obtain ⟨k, l⟩ := e
    by_cases hk : k = r
    · subst hk
      refine ⟨(k, l ++ [c]), ?_, rfl, List.mem_append.mpr (Or.inr (List.mem_singleton.mpr rfl))⟩
      rw [insertGroup, if_pos rfl]
      exact List.mem_cons_self _ _
    · obtain ⟨kl, hkl, he, hc⟩ := ih
      refine ⟨kl, ?_, he, hc⟩
      rw [insertGroup, if_neg hk]
      exact List.mem_cons_of_mem _ hkl

theorem groupFold_keys_nodup (key : ℕ × ℕ → ℕ) (L : List (ℕ × ℕ)) :
    (((groupFold key L).map Prod.fst)).Nodup := by
  unfold groupFold
  have hgen : ∀ (M : List (ℕ × ℕ)) (g : List (ℕ × List (ℕ × ℕ))),
      (g.map Prod.fst).Nodup →
      ((M.foldl (fun g2 c => insertGroup g2 (key c) c) g).map Prod.fst).Nodup := by
    intro M
    induction M with
    | nil => intro g hg; simpa using hg
    | cons c rest ih =>
      intro g hg
      rw [List.foldl_cons]
      exact ih _ (insertGroup_keys_nodup _ _ hg)
  exact hgen L [] (by simp)

theorem groupFold_sound (key : ℕ × ℕ → ℕ) (L : List (ℕ × ℕ)) :
    ∀ kl ∈ groupFold key L, ∀ x ∈ kl.2, x ∈ L ∧ key x = kl.1 := by
  unfold groupFold
  have hgen : ∀ (M : List (ℕ × ℕ)) (g : List (ℕ × List (ℕ × ℕ)))
      (P : ℕ × ℕ → Prop),
      (∀ kl ∈ g, ∀ x ∈ kl.2, P x ∧ key x = kl.1) →
      (∀ x ∈ M, P x) →
      ∀ kl ∈ M.foldl (fun g2 c => insertGroup g2 (key c) c) g, ∀ x ∈ kl.2,
        P x ∧ key x = kl.1 := by
    intro M
    induction M with
    | nil => intro g P hg hM; simpa using hg
    | cons c rest ih =>
      intro g P hg hM
      rw [List.foldl_cons]
      refine ih _ P ?_ (fun x hx => hM x (List.mem_cons_of_mem _ hx))
      intro kl hkl x hx
      rcases insertGroup_sound (key c) c g kl hkl x hx with ⟨kl', hkl', hx', he⟩ | ⟨rfl, he⟩
      · obtain ⟨hp, hk⟩ := hg kl' hkl' x hx'
        exact ⟨hp, he ▸ hk⟩
      · exact ⟨hM x (List.mem_cons_self _ _), he.symm⟩
  intro kl hkl x hx
  exact hgen L [] (fun x => x ∈ L) (by simp) (fun x hx => hx) kl hkl x hx

theorem groupFold_complete (key : ℕ × ℕ → ℕ) (L : List (ℕ × ℕ)) :
    ∀ x ∈ L, ∃ kl ∈ groupFold key L, x ∈ kl.2 := by
  unfold groupFold
  have hgen : ∀ (M : List (ℕ × ℕ)) (g : List (ℕ × List (ℕ × ℕ))) (x : ℕ × ℕ),
      (x ∈ M ∨ ∃ kl ∈ g, x ∈ kl.2) →
      ∃ kl ∈ M.foldl (fun g2 c => insertGroup g2 (key c) c) g, x ∈ kl.2 := by
    intro M
    induction M with
    | nil =>
      intro g x hx
      rcases hx with hx | hx
      · exact absurd hx (List.not_mem_nil x)
      · simpa using hx
    | cons c rest ih =>
      intro g x hx
      rw [List.foldl_cons]
      apply ih
      rcases hx with hx | ⟨kl, hkl, hx⟩
      · rcases List.mem_cons.mp hx with rfl | hx
        · obtain ⟨kl, hkl, -, hc⟩ := insertGroup_self (key x) x g
          exact Or.inr ⟨kl, hkl, hc⟩
        · exact Or.inl hx
      · obtain ⟨kl2, hkl2, -, hsub⟩ := insertGroup_mono (key c) c g kl hkl
        exact Or.inr ⟨kl2, hkl2, hsub x hx⟩
  intro x hx
  exact hgen L [] x (Or.inl hx)

theorem eq_of_mem_nodup_keys :
    ∀ (g : List (ℕ × List (ℕ × ℕ))), (g.map Prod.fst).Nodup →
      ∀ kl ∈ g, ∀ kl' ∈ g, kl.1 = kl'.1 → kl = kl' := by
  intro g
  induction g with
  | nil => intro _ kl hkl; exact absurd hkl (List.not_mem_nil kl)
  | cons e rest ih =>
    intro hnd kl hkl kl' hkl' he
    rw [List.map_cons, List.nodup_cons] at hnd
    rcases List.mem_cons.mp hkl with h1 | h1 <;>
      rcases List.mem_cons.mp hkl' with h2 | h2
    · rw [h1, h2]
    · exfalso
      apply hnd.1
      rw [← h1, he]
      exact List.mem_map.mpr ⟨kl', h2, rfl⟩
    · exfalso
      apply hnd.1
      rw [← h2, ← he]
      exact List.mem_map.mpr ⟨kl, h1, rfl⟩
    · exact ih hnd.2 kl h1 kl' h2 he

theorem mem_cellList (o : Object) (c : ℕ × ℕ) :
    c ∈ o.cellList ↔
      c.1 < o.object_h ∧ c.2 < o.object_w ∧
        o.matAt c.1 c.2 ≠ MaterialTyp.Luft := by
  unfold Object.cellList
  rw [List.mem_flatMap]
  constructor
  · rintro ⟨i, hi, hmem⟩
    rw [List.mem_range] at hi
    obtain ⟨j, hj, heq⟩ := List.mem_filterMap.mp hmem
    rw [List.mem_range] at hj
    by_cases hm : o.matAt i j = MaterialTyp.Luft
    · rw [if_pos hm] at heq
      exact absurd heq (by simp)
    · rw [if_neg hm] at heq
      obtain rfl := Option.some_injective _ heq
      exact ⟨hi, hj, hm⟩
  · rintro ⟨h1, h2, h3⟩
    refine ⟨c.1, List.mem_range.mpr h1, List.mem_filterMap.mpr
      ⟨c.2, List.mem_range.mpr h2, ?_⟩⟩
    rw [if_neg h3]

theorem rootFn_eq_iff (o : Object) (broken : List Bond) (c d : ℕ × ℕ) :
    o.rootFn broken c = o.rootFn broken d ↔
      rootEq (pget (o.fracture_parent broken)) (o.to_index c) (o.to_index d) := by
  have h0wf : UFWF (o.object_h * o.object_w) (o.fracture_parent broken) :=
    (fracture_parent_spec o broken).1
  obtain ⟨hrec, -, -⟩ :=
    ufFind_spec (o.object_h * o.object_w) (o.fracture_parent broken)
      (o.to_index c) h0wf (root_within h0wf _)
  obtain ⟨hred, -, -⟩ :=
    ufFind_spec (o.object_h * o.object_w) (o.fracture_parent broken)
      (o.to_index d) h0wf (root_within h0wf _)
  constructor
  · intro h
    exact ⟨o.rootFn broken d, h ▸ hrec, hred⟩
  · rintro ⟨r, hcr, hdr⟩
    rw [show o.rootFn broken c = r from reaches_unique hrec hcr,
      show o.rootFn broken d = r from reaches_unique hred hdr]

theorem keptCellRel_iff_bondAdj (o : Object) (broken : List Bond) (c d : ℕ × ℕ) :
    o.keptCellRel broken c d ↔ o.bondAdj broken c d := by
  constructor
  · rintro ⟨b, hb, rfl, rfl⟩
    obtain ⟨hab, hkept⟩ := List.mem_filter.mp hb
    have hkept' : b ∉ broken := by
      rw [← contains_eq_false_iff]
      simpa using hkept
    obtain ⟨h1, h2, h3, h4, h5, h6⟩ := all_bonds_endpoints o hab
    rcases (mem_all_bonds o b).mp hab with ⟨i, j, hi, hj, hm1, hm2, rfl⟩ |
      ⟨i, j, hi, hj, hm1, hm2, rfl⟩
    · exact ⟨h1, h2, h3, h4, h5, h6, Or.inl rfl, hkept'⟩
    · exact ⟨h1, h2, h3, h4, h5, h6, Or.inr rfl, hkept'⟩
  · rintro ⟨h1, h2, h3, h4, h5, h6, hshape, hkept⟩
    have hmem : (c, d) ∈ o.all_bonds := by
      rcases hshape with rfl | rfl
      · refine (mem_all_bonds o _).mpr (Or.inl ⟨c.1, c.2, h1, ?_, h5, ?_, ?_⟩)
        · simpa using h4
        · simpa using h6
        · simp
      · refine (mem_all_bonds o _).mpr (Or.inr ⟨c.1, c.2, ?_, h2, h5, ?_, ?_⟩)
        · simpa using h3
        · simpa using h6
        · simp
    have hcontains : (!broken.contains (c, d)) = true := by simpa using hkept
    exact ⟨(c, d), List.mem_filter.mpr ⟨hmem, hcontains⟩, rfl, rfl⟩

theorem eqvGen_iff_reflTransGen_symm {α : Type} (r : α → α → Prop) (x y : α) :
    Relation.EqvGen r x y ↔
      Relation.ReflTransGen (fun a b => r a b ∨ r b a) x y := by
  have hsym : Symmetric (fun a b => r a b ∨ r b a) := fun a b h => h.symm
  constructor
  · intro h
    induction h with
    | rel a b hab => exact Relation.ReflTransGen.single (Or.inl hab)
    | refl a => exact Relation.ReflTransGen.refl
    | symm a b _ ih => exact (Relation.ReflTransGen.symmetric hsym) ih
    | trans a b c _ _ ih1 ih2 => exact ih1.trans ih2
  · intro h
    induction h with
    | refl => exact Relation.EqvGen.refl x
    | tail hab hbc ih =>
      rcases hbc with hbc | hbc
      · exact Relation.EqvGen.trans _ _ _ ih (Relation.EqvGen.rel _ _ hbc)
      · exact Relation.EqvGen.trans _ _ _ ih
          (Relation.EqvGen.symm _ _ (Relation.EqvGen.rel _ _ hbc))

theorem eqvGen_idx_to_cell (o : Object) (broken : List Bond) :
    ∀ m1 m2, Relation.EqvGen (o.keptIdxRel broken) m1 m2 →
      m1 = m2 ∨ ∃ c d : ℕ × ℕ, c.1 < o.object_h ∧ c.2 < o.object_w ∧
        d.1 < o.object_h ∧ d.2 < o.object_w ∧
        m1 = o.to_index c ∧ m2 = o.to_index d ∧
        Relation.EqvGen (o.keptCellRel broken) c d := by
  intro m1 m2 h
  induction h with
  | rel u v huv =>
    obtain ⟨b, hb, rfl, rfl⟩ := huv
    obtain ⟨hbab, -⟩ := List.mem_filter.mp hb
    obtain ⟨h1, h2, h3, h4, -, -⟩ := all_bonds_endpoints o hbab
    exact Or.inr ⟨b.1, b.2, h1, h2, h3, h4, rfl, rfl,
      Relation.EqvGen.rel _ _ ⟨b, hb, rfl, rfl⟩⟩
  | refl u => exact Or.inl rfl
  | symm u v _ ih =>
    rcases ih with h | ⟨c, d, h1, h2, h3, h4, h5, h6, h7⟩
    · exact Or.inl h.symm
    · exact Or.inr ⟨d, c, h3, h4, h1, h2, h6, h5, Relation.EqvGen.symm _ _ h7⟩
  | trans u v w _ _ ih1 ih2 =>
    rcases ih1 with h | ⟨c, d, h1, h2, h3, h4, h5, h6, h7⟩
    · rcases ih2 with h' | ⟨c, d, h1, h2, h3, h4, h5, h6, h7⟩
      · exact Or.inl (h.trans h')
      · exact Or.inr ⟨c, d, h1, h2, h3, h4, h ▸ h5, h6, h7⟩
    · rcases ih2 with h' | ⟨c', d', h1', h2', h3', h4', h5', h6', h7'⟩
      · exact Or.inr ⟨c, d, h1, h2, h3, h4, h5, h' ▸ h6, h7⟩
      · have hdc : d = c' := to_index_inj o h4 h2' (by rw [← h6, h5'])
        subst hdc
        exact Or.inr ⟨c, d', h1, h2, h3', h4', h5, h6',
          Relation.EqvGen.trans _ _ _ h7 h7'⟩

theorem eqvGen_cell_to_idx (o : Object) (broken : List Bond) (c d : ℕ × ℕ)
    (h : Relation.EqvGen (o.keptCellRel broken) c d) :
    Relation.EqvGen (o.keptIdxRel broken) (o.to_index c) (o.to_index d) := by
  induction h with
  | rel u v huv =>
    obtain ⟨b, hb, rfl, rfl⟩ := huv
    exact Relation.EqvGen.rel _ _ ⟨b, hb, rfl, rfl⟩
  | refl u => exact Relation.EqvGen.refl _
  | symm u v _ ih => exact Relation.EqvGen.symm _ _ ih
  | trans u v w _ _ ih1 ih2 => exact Relation.EqvGen.trans _ _ _ ih1 ih2

theorem sameRoot_iff_connected (o : Object) (broken : List Bond)
    {c d : ℕ × ℕ} (hc2 : c.2 < o.object_w) (hd2 : d.2 < o.object_w) :
    o.rootFn broken c = o.rootFn broken d ↔ o.connectedCells broken c d := by
  rw [rootFn_eq_iff, (fracture_parent_spec o broken).2]
  constructor
  · intro h
    rcases eqvGen_idx_to_cell o broken _ _ h with heq |
      ⟨c', d', h1', h2', h3', h4', h5', h6', h7'⟩
    · have hcd : c = d := to_index_inj o hc2 hd2 heq
      rw [hcd]
      exact Relation.ReflTransGen.refl
    · have hcc : c = c' := to_index_inj o hc2 h2' h5'
      have hdd : d = d' := to_index_inj o hd2 h4' h6'
      rw [hcc, hdd]
      unfold Object.connectedCells
      rw [← eqvGen_iff_reflTransGen_symm]
      exact h7'.mono (fun a b hab =>
        (keptCellRel_iff_bondAdj o broken a b).mp hab)
  · intro h
    apply eqvGen_cell_to_idx
    unfold Object.connectedCells at h
    rw [← eqvGen_iff_reflTransGen_symm] at h
    exact h.mono (fun a b hab => (keptCellRel_iff_bondAdj o broken a b).mpr hab)

theorem insertGroup_ne_nil (r : ℕ) (c : ℕ × ℕ) :
    ∀ g : List (ℕ × List (ℕ × ℕ)), (∀ kl ∈ g, kl.2 ≠ []) →
      ∀ kl ∈ insertGroup g r c, kl.2 ≠ [] := by
  intro g
  induction g with
  | nil =>
    intro _ kl hkl
    rw [insertGroup, List.mem_singleton] at hkl
    subst hkl
    simp
  | cons e rest ih =>
    obtain ⟨k, l⟩ := e
    intro hg kl hkl
    by_cases hk : k = r
    · subst hk
      rw [insertGroup, if_pos rfl, List.mem_cons] at hkl
      rcases hkl with rfl | hkl
      · simp
      · exact hg kl (List.mem_cons_of_mem _ hkl)
    · rw [insertGroup, if_neg hk, List.mem_cons] at hkl
      rcases hkl with rfl | hkl
      · exact hg (k, l) (List.mem_cons_self _ _)
      · exact ih (fun kl' hkl' => hg kl' (List.mem_cons_of_mem _ hkl')) kl hkl

theorem groupFold_ne_nil (key : ℕ × ℕ → ℕ) (L : List (ℕ × ℕ)) :
    ∀ kl ∈ groupFold key L, kl.2 ≠ [] := by
  unfold groupFold
  have hgen : ∀ (M : List (ℕ × ℕ)) (g : List (ℕ × List (ℕ × ℕ))),
      (∀ kl ∈ g, kl.2 ≠ []) →
      ∀ kl ∈ M.foldl (fun g2 c => insertGroup g2 (key c) c) g, kl.2 ≠ [] := by
    intro M
    induction M with
    | nil => intro g hg; simpa using hg
    | cons c rest ih =>
      intro g hg
      rw [List.foldl_cons]
      exact ih _ (insertGroup_ne_nil (key c) c g hg)
  exact hgen L [] (by simp)

theorem find_fragments_nodup (o : Object) (broken : List Bond) :
    (o.find_fragments broken).Nodup := by
  rw [find_fragments_eq]
  have hknd : ((groupFold (o.rootFn broken) o.cellList).map Prod.fst).Pairwise (· ≠ ·) :=
    groupFold_keys_nodup (o.rootFn broken) o.cellList
  rw [List.pairwise_map] at hknd
  refine List.pairwise_map.mpr (hknd.imp_of_mem ?_)
  intro a b ha hb hne heq
  have hane : a.2 ≠ [] := groupFold_ne_nil _ _ a ha
  obtain ⟨x, hx⟩ := List.exists_mem_of_ne_nil a.2 hane
  have h1 := groupFold_sound (o.rootFn broken) o.cellList a ha x hx
  have h2 := groupFold_sound (o.rootFn broken) o.cellList b hb x (heq ▸ hx)
  exact hne (h1.2.symm.trans h2.2)

/-- **C1.** `Object::find_fragments` returns exactly the connected
components of the graph whose vertices are the object's in-range non-air
grid cells and whose edges are the right-neighbor and up-neighbor pairs of
non-air cells minus the listed broken bonds: the returned fragment list has
no duplicate entry, every in-range non-air cell lies in exactly one
returned fragment, every cell of every returned fragment is an in-range
non-air cell (so no air cell appears in any fragment), and two non-air
cells lie in a common fragment if and only if they are connected by
unbroken bonds. -/
theorem C1_find_fragments_connected_components (o : Object) (broken : List Bond) :
    (o.find_fragments broken).Nodup ∧
    (∀ c : ℕ × ℕ, c.1 < o.object_h → c.2 < o.object_w →
      o.matAt c.1 c.2 ≠ MaterialTyp.Luft →
      ∃! F, F ∈ o.find_fragments broken ∧ c ∈ F) ∧
    (∀ F ∈ o.find_fragments broken, ∀ c ∈ F,
      c.1 < o.object_h ∧ c.2 < o.object_w ∧
        o.matAt c.1 c.2 ≠ MaterialTyp.Luft) ∧
    (∀ c d : ℕ × ℕ, c.1 < o.object_h → c.2 < o.object_w →
      o.matAt c.1 c.2 ≠ MaterialTyp.Luft →
      d.1 < o.object_h → d.2 < o.object_w →
      o.matAt d.1 d.2 ≠ MaterialTyp.Luft →
      ((∃ F, F ∈ o.find_fragments broken ∧ c ∈ F ∧ d ∈ F) ↔
        o.connectedCells broken c d)) := by
  have hfrag := find_fragments_eq o broken
  have hnodk := groupFold_keys_nodup (o.rootFn broken) o.cellList
  have hsound := groupFold_sound (o.rootFn broken) o.cellList
  have hcompl := groupFold_complete (o.rootFn broken) o.cellList
  refine ⟨find_fragments_nodup o broken, ?_, ?_, ?_⟩
  · intro c h1 h2 h3
    have hcL : c ∈ o.cellList := (mem_cellList o c).mpr ⟨h1, h2, h3⟩
    obtain ⟨kl, hkl, hck⟩ := hcompl c hcL
    refine ⟨kl.2, ⟨hfrag ▸ List.mem_map.mpr ⟨kl, hkl, rfl⟩, hck⟩, ?_⟩
    rintro F ⟨hF, hcF⟩
    rw [hfrag] at hF
    obtain ⟨kl', hkl', rfl⟩ := List.mem_map.mp hF
    have he1 := (hsound kl hkl c hck).2
    have he2 := (hsound kl' hkl' c hcF).2
    have : kl' = kl := eq_of_mem_nodup_keys _ hnodk kl' hkl' kl hkl (he2.symm.trans he1)
    rw [this]
  · intro F hF c hc
    rw [hfrag] at hF
    obtain ⟨kl, hkl, rfl⟩ := List.mem_map.mp hF
    exact (mem_cellList o c).mp (hsound kl hkl c hc).1
  · intro c d hc1 hc2 hc3 hd1 hd2 hd3
    rw [← sameRoot_iff_connected o broken hc2 hd2]
    constructor
    · rintro ⟨F, hF, hcF, hdF⟩
      rw [hfrag] at hF
      obtain ⟨kl, hkl, rfl⟩ := List.mem_map.mp hF
      exact ((hsound kl hkl c hcF).2).trans ((hsound kl hkl d hdF).2).symm
    · intro hroot
      obtain ⟨kl, hkl, hck⟩ := hcompl c ((mem_cellList o c).mpr ⟨hc1, hc2, hc3⟩)
      obtain ⟨kl', hkl', hdk⟩ := hcompl d ((mem_cellList o d).mpr ⟨hd1, hd2, hd3⟩)
      have he1 := (hsound kl hkl c hck).2
      have he2 := (hsound kl' hkl' d hdk).2
      have : kl' = kl := eq_of_mem_nodup_keys _ hnodk kl' hkl' kl hkl
        (he2.symm.trans (hroot.symm.trans he1))
      refine ⟨kl.2, hfrag ▸ List.mem_map.mpr ⟨kl, hkl, rfl⟩, hck, ?_⟩
      rw [← this]
      exact hdk

theorem C1_witness :
    ∃! F, F ∈ objC5.find_fragments [] ∧ ((0 : ℕ), (0 : ℕ)) ∈ F :=
  (C1_find_fragments_connected_components objC5 []).2.1 (0, 0)
    (by decide) (by decide) (by decide)

theorem list_range_map_sum (f : ℕ → ℚ) (n : ℕ) :
    ((List.range n).map f).sum = ∑ j ∈ Finset.range n, f j := by
  induction n with
  | zero => simp
  | succ m ih =>
    rw [List.range_succ]
    simp [ih, Finset.sum_range_succ]

theorem sum_map_flatMap (l : List ℕ) (f : ℕ → List (ℕ × ℕ)) (g : ℕ × ℕ → ℚ) :
    ((l.flatMap f).map g).sum = (l.map (fun i => ((f i).map g).sum)).sum := by
  induction l with
  | nil => simp
  | cons a rest ih => simp [List.flatMap_cons, ih]

theorem sum_map_filterMap_row (o : Object) (i : ℕ) (g : ℕ × ℕ → ℚ) :
    ∀ lw : List ℕ,
      (((lw.filterMap (fun j => if o.matAt i j = MaterialTyp.Luft then none
          else some (i, j))).map g).sum) =
        (lw.map (fun j => if o.matAt i j ≠ MaterialTyp.Luft then g (i, j)
          else 0)).sum := by
  intro lw
  induction lw with
  | nil => rfl
  | cons a rest ih =>
    rw [List.filterMap_cons]
    by_cases hm : o.matAt i a = MaterialTyp.Luft
    · rw [if_pos hm]
      simp [hm, ih]
    · rw [if_neg hm]
      simp [hm, ih]

theorem cellList_mass_sum (o : Object) :
    (o.cellList.map (fun c => (o.matAt c.1 c.2).density)).sum = o.nonAirMass := by
  unfold Object.cellList Object.nonAirMass
  rw [sum_map_flatMap, list_range_map_sum]
  refine Finset.sum_congr rfl (fun i _ => ?_)
  rw [sum_map_filterMap_row, list_range_map_sum]

theorem extract_mass_eq (o : Object) (F : List (ℕ × ℕ)) :
    ((o.extract_fragment_data F).map (fun pr => pr.2.density)).sum =
      (F.map (fun c => (o.matAt c.1 c.2).density)).sum := by
  unfold Object.extract_fragment_data
  rw [List.map_map]
  rfl

theorem insertGroup_sum (f : ℕ × ℕ → ℚ) (r : ℕ) (c : ℕ × ℕ) :
    ∀ g : List (ℕ × List (ℕ × ℕ)),
      ((insertGroup g r c).map (fun kl => (kl.2.map f).sum)).sum =
        ((g.map (fun kl => (kl.2.map f).sum)).sum) + f c := by
  intro g
  induction g with
  | nil => simp [insertGroup]
  | cons e rest ih =>
    obtain ⟨k, l⟩ := e
    by_cases hk : k = r
    · subst hk
      rw [insertGroup, if_pos rfl]
      simp only [List.map_cons, List.sum_cons, List.map_append,
        List.sum_append, List.map_singleton, List.sum_singleton,
        List.map_nil, List.sum_nil]
      ring
    · rw [insertGroup, if_neg hk]
      simp only [List.map_cons, List.sum_cons]
      rw [ih]
      ring

theorem groupFold_sum (key : ℕ × ℕ → ℕ) (f : ℕ × ℕ → ℚ) :
    ∀ (L : List (ℕ × ℕ)) (g : List (ℕ × List (ℕ × ℕ))),
      (((L.foldl (fun g2 c => insertGroup g2 (key c) c) g).map
        (fun kl => (kl.2.map f).sum)).sum) =
        ((g.map (fun kl => (kl.2.map f).sum)).sum) + (L.map f).sum := by
  intro L
  induction L with
  | nil => intro g; simp
  | cons c rest ih =>
    intro g
    rw [List.foldl_cons, ih, insertGroup_sum]
    simp only [List.map_cons, List.sum_cons]
    ring

/-- **C6.** The sum over all fragments returned by `find_fragments` of the
masses of the cells listed by `extract_fragment_data` (a cell's mass is its
material's density) equals the object's stored pre-fracture total mass,
provided the stored total mass indeed equals the summed mass of the
object's non-air cells (which is what the claim's parenthetical "excludes
air/hole cells" asserts of the stored value). -/
theorem C6_fragment_mass_conservation (o : Object) (broken : List Bond)
    (h : o.total_object_mass = o.nonAirMass) :
    o.fragmentsMass broken = o.total_object_mass := by
  rw [h]
  unfold Object.fragmentsMass
  rw [find_fragments_eq, List.map_map]
  have hcongr : ((groupFold (o.rootFn broken) o.cellList).map
      ((fun F => ((o.extract_fragment_data F).map (fun pr => pr.2.density)).sum)
        ∘ Prod.snd)) =
      ((groupFold (o.rootFn broken) o.cellList).map
        (fun kl => (kl.2.map (fun c => (o.matAt c.1 c.2).density)).sum)) :=
    List.map_congr_left (fun kl _ => extract_mass_eq o kl.2)
  rw [hcongr]
  unfold groupFold
  rw [groupFold_sum]
  rw [cellList_mass_sum]
  simp

theorem C6_witness : objC6.fragmentsMass [] = objC6.total_object_mass :=
  C6_fragment_mass_conservation objC6 [] (by
    norm_num [objC6, Object.new, Particle.new, Object.nonAirMass, Object.matAt,
      MaterialTyp.density, Finset.sum_range_succ,
      show MaterialTyp.Stein ≠ MaterialTyp.Luft from by decide])

/-- **C8, counterexample.**  Two input pairs share the world position
`(0, 0)` with different materials.  `new_from_fragment` keeps only the
FIRST match (`find`), so the pair `((0,0), Sand)` is an input pair whose
bounding-box cell does not hold that pair's material, contradicting the
claim's "its local cell ... holds that pair's material" for every pair. -/
theorem C8_counterexample :
    ((((0 : ℚ), (0 : ℚ)), MaterialTyp.Sand) ∈ fragListC8) ∧
    objC8.object_h = 1 ∧ objC8.object_w = 1 ∧
    objC8.matAt 0 0 ≠ MaterialTyp.Sand := by decide

theorem find_unique {α : Type} (p : α → Bool) (a : α) :
    ∀ l : List α, a ∈ l → p a = true → (∀ b ∈ l, p b = true → b = a) →
      l.find? p = some a := by
  intro l
  induction l with
  | nil => intro ha; exact absurd ha (List.not_mem_nil a)
  | cons x rest ih =>
    intro ha hpa huniq
    by_cases hx : p x = true
    · rw [List.find?_cons_of_pos _ hx]
      exact congrArg some (huniq x (List.mem_cons_self _ _) hx)
    · rw [List.find?_cons_of_neg _ hx]
      rcases List.mem_cons.mp ha with rfl | ha'
      · exact absurd hpa hx
      · exact ih ha' hpa (fun b hb hpb => huniq b (List.mem_cons_of_mem _ hb) hpb)

theorem fragMaterialAt_self (fd : List ((ℚ × ℚ) × MaterialTyp))
    (hdist : (fd.map (fun pr => (ratToUsize pr.1.1, ratToUsize pr.1.2))).Nodup)
    {pr : (ℚ × ℚ) × MaterialTyp} (hpr : pr ∈ fd) :
    fragMaterialAt fd (ratToUsize pr.1.1) (ratToUsize pr.1.2) = pr.2 := by
  have hfind : fd.find? (fun pr' => ratToUsize pr'.1.1 == ratToUsize pr.1.1 &&
      ratToUsize pr'.1.2 == ratToUsize pr.1.2) = some pr := by
    apply find_unique _ pr fd hpr (by simp)
    intro b hb hpb
    simp only [Bool.and_eq_true, beq_iff_eq] at hpb
    refine List.inj_on_of_nodup_map hdist hb hpr ?_
    show (ratToUsize b.1.1, ratToUsize b.1.2) = _
    rw [hpb.1, hpb.2]
  unfold fragMaterialAt
  rw [hfind]

/-- **C8, amended.**  For a non-empty input list (witnessed by the four
`min?`/`max?` values) at integer positions whose (truncated) positions are
pairwise DISTINCT, `new_from_fragment` anchors at the coordinate minima,
sizes the grid as the tight bounding box, stores each input pair's material
at that pair's world position in the corresponding local cell, fills every
cell addressed by no input pair with `Luft`, and totals the densities of the
non-air input pairs.  Without the distinctness proviso the per-pair clause
fails (`C8_counterexample`): only the FIRST pair at a repeated position is
kept. -/
theorem C8_amended (id : ℤ) (object_idx : ℕ) (fd : List ((ℚ × ℚ) × MaterialTyp))
    (velocity : ℚ × ℚ) (mnx mxx mny mxy : ℕ)
    (hmnx : (fd.map (fun pr => ratToUsize pr.1.1)).min? = some mnx)
    (hmxx : (fd.map (fun pr => ratToUsize pr.1.1)).max? = some mxx)
    (hmny : (fd.map (fun pr => ratToUsize pr.1.2)).min? = some mny)
    (hmxy : (fd.map (fun pr => ratToUsize pr.1.2)).max? = some mxy)
    (hnat : ∀ pr ∈ fd, ∃ x y : ℕ, pr.1 = ((x : ℚ), (y : ℚ)))
    (hdist : (fd.map (fun pr => (ratToUsize pr.1.1, ratToUsize pr.1.2))).Nodup) :
    ∃ o, Object.new_from_fragment id object_idx fd velocity = some o ∧
      o.position = ((mnx : ℚ), (mny : ℚ)) ∧
      o.object_w = mxx - mnx + 1 ∧
      o.object_h = mxy - mny + 1 ∧
      (∀ pr ∈ fd,
        o.matAt (ratToUsize pr.1.2 - mny) (ratToUsize pr.1.1 - mnx) = pr.2 ∧
        (o.object_grid (ratToUsize pr.1.2 - mny)
          (ratToUsize pr.1.1 - mnx)).1.position = pr.1) ∧
      (∀ i j, (∀ pr ∈ fd,
        ¬(ratToUsize pr.1.1 = mnx + j ∧ ratToUsize pr.1.2 = mny + i)) →
        o.matAt i j = MaterialTyp.Luft) ∧
      o.total_object_mass =
        ((fd.filter (fun pr => pr.2 ≠ MaterialTyp.Luft)).map
          (fun pr => pr.2.density)).sum := by
  have hrx_lb : ∀ pr ∈ fd, mnx ≤ ratToUsize pr.1.1 := fun pr hpr =>
    (List.min?_eq_some_iff'.mp hmnx).2 _ (List.mem_map.mpr ⟨pr, hpr, rfl⟩)
  have hrx_ub : ∀ pr ∈ fd, ratToUsize pr.1.1 ≤ mxx := fun pr hpr =>
    (List.max?_eq_some_iff'.mp hmxx).2 _ (List.mem_map.mpr ⟨pr, hpr, rfl⟩)
  have hry_lb : ∀ pr ∈ fd, mny ≤ ratToUsize pr.1.2 := fun pr hpr =>
    (List.min?_eq_some_iff'.mp hmny).2 _ (List.mem_map.mpr ⟨pr, hpr, rfl⟩)
  have hry_ub : ∀ pr ∈ fd, ratToUsize pr.1.2 ≤ mxy := fun pr hpr =>
    (List.max?_eq_some_iff'.mp hmxy).2 _ (List.mem_map.mpr ⟨pr, hpr, rfl⟩)
  have hobj : Object.new_from_fragment id object_idx fd velocity =
      some ⟨id, false, ((mnx : ℚ), (mny : ℚ)), velocity,
        ∑ i ∈ Finset.range (mxy - mny + 1), ∑ j ∈ Finset.range (mxx - mnx + 1),
          (if fragMaterialAt fd (mnx + j) (mny + i) ≠ MaterialTyp.Luft
           then (fragMaterialAt fd (mnx + j) (mny + i)).density else 0),
        mxy - mny + 1, mxx - mnx + 1, fun i j =>
          (Particle.new (id * 100 + ((i * (mxx - mnx + 1) + j : ℕ) : ℤ))
            (((mnx + j : ℕ) : ℚ), ((mny + i : ℕ) : ℚ)) velocity
            (fragMaterialAt fd (mnx + j) (mny + i))
            (ParticleRef.InObject object_idx i j), 0, 0)⟩ := by
    unfold Object.new_from_fragment
    rw [hmnx, obind_some, hmxx, obind_some, hmny, obind_some, hmxy, obind_some]
  refine ⟨_, hobj, rfl, rfl, rfl, ?_, ?_, ?_⟩
  · intro pr hpr
    have hx := hrx_lb pr hpr
    have hy := hry_lb pr hpr
    have hjx : mnx + (ratToUsize pr.1.1 - mnx) = ratToUsize pr.1.1 := by omega
    have hiy : mny + (ratToUsize pr.1.2 - mny) = ratToUsize pr.1.2 := by omega
    constructor
    · show fragMaterialAt fd (mnx + (ratToUsize pr.1.1 - mnx))
        (mny + (ratToUsize pr.1.2 - mny)) = pr.2
      rw [hjx, hiy]
      exact fragMaterialAt_self fd hdist hpr
    · show (((mnx + (ratToUsize pr.1.1 - mnx) : ℕ) : ℚ),
        ((mny + (ratToUsize pr.1.2 - mny) : ℕ) : ℚ)) = pr.1
      rw [hjx, hiy]
      obtain ⟨x, y, hxy⟩ := hnat pr hpr
      simp only [hxy, ratToUsize_natCast]
  · intro i j hno
    show fragMaterialAt fd (mnx + j) (mny + i) = MaterialTyp.Luft
    have hnone : fd.find? (fun pr => ratToUsize pr.1.1 == mnx + j &&
        ratToUsize pr.1.2 == mny + i) = none := by
      rw [List.find?_eq_none]
      intro pr hpr hp
      simp only [Bool.and_eq_true, beq_iff_eq] at hp
      exact hno pr hpr ⟨hp.1, hp.2⟩
    unfold fragMaterialAt
    rw [hnone]
  · show (∑ i ∈ Finset.range (mxy - mny + 1), ∑ j ∈ Finset.range (mxx - mnx + 1),
      (if fragMaterialAt fd (mnx + j) (mny + i) ≠ MaterialTyp.Luft
       then (fragMaterialAt fd (mnx + j) (mny + i)).density else 0)) =
      ((fd.filter (fun pr => pr.2 ≠ MaterialTyp.Luft)).map
        (fun pr => pr.2.density)).sum
    have hfdnodup : fd.Nodup := hdist.of_map _
    have hfnodup : (fd.filter (fun pr => pr.2 ≠ MaterialTyp.Luft)).Nodup :=
      hfdnodup.filter _
    have hprod : ∑ x ∈ Finset.range (mxy - mny + 1) ×ˢ
        Finset.range (mxx - mnx + 1),
        (if fragMaterialAt fd (mnx + x.2) (mny + x.1) ≠ MaterialTyp.Luft
         then (fragMaterialAt fd (mnx + x.2) (mny + x.1)).density else 0) =
        ∑ i ∈ Finset.range (mxy - mny + 1), ∑ j ∈ Finset.range (mxx - mnx + 1),
          (if fragMaterialAt fd (mnx + j) (mny + i) ≠ MaterialTyp.Luft
           then (fragMaterialAt fd (mnx + j) (mny + i)).density else 0) :=
      Finset.sum_product _ _ _
    rw [← hprod, ← Finset.sum_filter, ← List.sum_toFinset _ hfnodup]
    symm
    refine Finset.sum_bij (fun pr _ =>
      ((ratToUsize pr.1.2 - mny, ratToUsize pr.1.1 - mnx) : ℕ × ℕ)) ?_ ?_ ?_ ?_
    · intro pr hpr
      rw [List.mem_toFinset, List.mem_filter] at hpr
      obtain ⟨hmem, hmat⟩ := hpr
      have hmat' : pr.2 ≠ MaterialTyp.Luft := by simpa using hmat
      rw [Finset.mem_filter]
      constructor
      · rw [Finset.mem_product]
        constructor
        · rw [Finset.mem_range]
          show ratToUsize pr.1.2 - mny < mxy - mny + 1
          have := hry_lb pr hmem
          have := hry_ub pr hmem
          omega
        · rw [Finset.mem_range]
          show ratToUsize pr.1.1 - mnx < mxx - mnx + 1
          have := hrx_lb pr hmem
          have := hrx_ub pr hmem
          omega
      · have hjx : mnx + (ratToUsize pr.1.1 - mnx) = ratToUsize pr.1.1 := by
          have := hrx_lb pr hmem
          omega
        have hiy : mny + (ratToUsize pr.1.2 - mny) = ratToUsize pr.1.2 := by
          have := hry_lb pr hmem
          omega
        show fragMaterialAt fd (mnx + (ratToUsize pr.1.1 - mnx))
          (mny + (ratToUsize pr.1.2 - mny)) ≠ MaterialTyp.Luft
        rw [hjx, hiy, fragMaterialAt_self fd hdist hmem]
        exact hmat'
    · intro a ha b hb heq
      rw [List.mem_toFinset, List.mem_filter] at ha hb
      have hax := hrx_lb a ha.1
      have hay := hry_lb a ha.1
      have hbx := hrx_lb b hb.1
      have hby := hry_lb b hb.1
      rw [Prod.mk.injEq] at heq
      refine List.inj_on_of_nodup_map hdist ha.1 hb.1 ?_
      show (ratToUsize a.1.1, ratToUsize a.1.2) = (ratToUsize b.1.1, ratToUsize b.1.2)
      rw [Prod.mk.injEq]
      omega
    · intro x hx
      rw [Finset.mem_filter, Finset.mem_product, Finset.mem_range,
        Finset.mem_range] at hx
      obtain ⟨⟨hx1, hx2⟩, hxm⟩ := hx
      rcases hfind : fd.find? (fun pr => ratToUsize pr.1.1 == mnx + x.2 &&
          ratToUsize pr.1.2 == mny + x.1) with - | pr
      · exfalso
        apply hxm
        unfold fragMaterialAt
        rw [hfind]
      · have hmem := List.mem_of_find?_eq_some hfind
        have hp := List.find?_some hfind
        simp only [Bool.and_eq_true, beq_iff_eq] at hp
        have hval : fragMaterialAt fd (mnx + x.2) (mny + x.1) = pr.2 := by
          unfold fragMaterialAt
          rw [hfind]
        refine ⟨pr, ?_, ?_⟩
        · rw [List.mem_toFinset, List.mem_filter]
          refine ⟨hmem, ?_⟩
          simpa using (hval ▸ hxm)
        · show (ratToUsize pr.1.2 - mny, ratToUsize pr.1.1 - mnx) = x
          rw [hp.1, hp.2]
          have h1 : mny + x.1 - mny = x.1 := by omega
          have h2 : mnx + x.2 - mnx = x.2 := by omega
          rw [h1, h2]
    · intro pr hpr
      rw [List.mem_toFinset, List.mem_filter] at hpr
      have hjx : mnx + (ratToUsize pr.1.1 - mnx) = ratToUsize pr.1.1 := by
        have := hrx_lb pr hpr.1
        omega
      have hiy : mny + (ratToUsize pr.1.2 - mny) = ratToUsize pr.1.2 := by
        have := hry_lb pr hpr.1
        omega
      show pr.2.density = (fragMaterialAt fd (mnx + (ratToUsize pr.1.1 - mnx))
        (mny + (ratToUsize pr.1.2 - mny))).density
      rw [hjx, hiy, fragMaterialAt_self fd hdist hpr.1]

theorem C8_witness :
    ∃ o, Object.new_from_fragment 5 0
        [(((0 : ℚ), (0 : ℚ)), MaterialTyp.Stein),
         (((1 : ℚ), (0 : ℚ)), MaterialTyp.Sand)] (0, 0) = some o ∧
      o.position = (((0 : ℕ) : ℚ), ((0 : ℕ) : ℚ)) ∧
      o.object_w = 2 ∧ o.object_h = 1 := by
  obtain ⟨o, h1, h2, h3, h4, -, -, -⟩ :=
    C8_amended 5 0
      [(((0 : ℚ), (0 : ℚ)), MaterialTyp.Stein),
       (((1 : ℚ), (0 : ℚ)), MaterialTyp.Sand)] (0, 0) 0 1 0 0
      (by decide) (by decide) (by decide) (by decide)
      (by
        intro pr hpr
        rcases List.mem_cons.mp hpr with rfl | hpr
        · exact ⟨0, 0, by norm_num⟩
        rcases List.mem_cons.mp hpr with rfl | hpr
        · exact ⟨1, 0, by norm_num⟩
        · exact absurd hpr (List.not_mem_nil pr))
      (by decide)
  exact ⟨o, h1, h2, h3, h4⟩

end Rusty
